import Mathlib

/-!
Verification of the time-dependent routing core of the transportation-system
repository: `dijkstra_time_dependent` (src/traffic_flow/dijkstra_time_dependent.py),
`yen_k_shortest_paths` (src/traffic_flow/yen_alternate_routes.py) and
`a_star_emergency_path` (src/emergency/astar_emergency.py).

The graph data model and the three weight callbacks are translated directly
from the Python source.  Python floats are modelled by `ℚ` extended with the
value `inf` (`WithTop ℚ`); all arithmetic the routers perform on weights is
exact in this range (sums, products by finite factors, `min`, comparisons),
and `math.sqrt` is modelled by the exact rational square root, which agrees
with the float square root on the perfect squares used in every concrete
evaluation below.

The library searches `nx.dijkstra_path` / `nx.astar_path` are not part of the
repository; they are modelled from the spec (sections 4.3 and 4.5) as one
best-first search engine: a priority queue keyed by tentative cost plus
heuristic, decrease-key by reinsertion, nodes finalized at first pop, stale
queue entries skipped, search stops when the target is popped or the queue
empties.
-/

/- Batteries marks the rational-number operations irreducible for elaboration
performance; concrete evaluations below need them to unfold. -/
attribute [local semireducible] Rat.add Rat.mul Rat.inv Rat.sub

namespace TransportSys

/-- Node identifiers (networkx node keys, abstracted to naturals). -/
abbrev Node := Nat

/-- Edge and path weights: rationals extended with the float value `inf`
(the routing weight callbacks read an absent base attribute as infinity). -/
abbrev W := WithTop ℚ

/-- Multiply a possibly-infinite weight by a finite rational factor, as
Python float multiplication behaves for the positive finite factors the
routers produce. -/
def mulW (w : W) (c : ℚ) : W := w.map (fun q => q * c)

/-- Per-node attributes used by the A* heuristic: the optional
`X_coordinate` / `Y_coordinate` entries of the node's attribute bag. -/
structure NodeData where
  x : Option ℚ
  y : Option ℚ
deriving DecidableEq

/-- Per-edge attributes as stored by the graph loaders, restricted to what
the routers read: the value of the queried base-metric key if that key is
present (`base`, itself possibly the float `inf`), the
`base_capacity_veh_hr` attribute, and the four per-time-of-day traffic
volume buckets. -/
structure EdgeData where
  base : Option W
  base_capacity_veh_hr : Option ℤ
  morning_peak_veh_h : Option ℤ
  afternoon_veh_h : Option ℤ
  evening_peak_veh_h : Option ℤ
  night_veh_h : Option ℤ
deriving DecidableEq

/-- A directed graph (networkx `DiGraph`): a node list with attributes and a
directed edge list with attributes. -/
structure Graph where
  nodes : List (Node × NodeData)
  edges : List (Node × Node × EdgeData)
deriving DecidableEq

/-- The node keys of the graph. -/
def Graph.nodeKeys (g : Graph) : List Node := g.nodes.map (fun p => p.1)

/-- `graph.has_node(n)`. -/
def Graph.has_node (g : Graph) (n : Node) : Prop := n ∈ g.nodeKeys

instance (g : Graph) (n : Node) : Decidable (g.has_node n) := by
  unfold Graph.has_node; infer_instance

/-- `graph.get_edge_data(u, v)`: the attribute bag of the directed edge
`(u, v)`, if that edge exists. -/
def Graph.get_edge_data (g : Graph) (u v : Node) : Option EdgeData :=
  (g.edges.find? (fun e => e.1 == u && e.2.1 == v)).map (fun e => e.2.2)

/-- The outgoing adjacency view of `u`: neighbors with edge data. -/
def Graph.succ (g : Graph) (u : Node) : List (Node × EdgeData) :=
  (g.edges.filter (fun e => e.1 == u)).map (fun e => (e.2.1, e.2.2))

/-- Facts every networkx `DiGraph` satisfies by construction: node keys are
unique, there is at most one directed edge per ordered pair, and edge
endpoints are nodes of the graph. -/
def Graph.WF (g : Graph) : Prop :=
  g.nodeKeys.Nodup ∧
  (g.edges.map (fun e => (e.1, e.2.1))).Nodup ∧
  ∀ e ∈ g.edges, e.1 ∈ g.nodeKeys ∧ e.2.1 ∈ g.nodeKeys

instance (g : Graph) : Decidable g.WF := by
  unfold Graph.WF; infer_instance

/-- The four recognized traffic-bucket attribute names. -/
inductive TrafficAttr
  | morning_peak_veh_h | afternoon_veh_h | evening_peak_veh_h | night_veh_h
deriving DecidableEq

/-- `traffic_col_map.get(time_of_day)`: time-of-day label to traffic
attribute name; an unknown label yields `None`. -/
def traffic_col_map (t : String) : Option TrafficAttr :=
  if t = "morning_peak" then some .morning_peak_veh_h
  else if t = "afternoon" then some .afternoon_veh_h
  else if t = "evening_peak" then some .evening_peak_veh_h
  else if t = "night" then some .night_veh_h
  else none

/-- `traffic_attr in data` / `data[traffic_attr]` for the traffic buckets. -/
def EdgeData.getAttr (d : EdgeData) : TrafficAttr → Option ℤ
  | .morning_peak_veh_h => d.morning_peak_veh_h
  | .afternoon_veh_h => d.afternoon_veh_h
  | .evening_peak_veh_h => d.evening_peak_veh_h
  | .night_veh_h => d.night_veh_h

/-- Python truthiness of the optional `time_of_day` string (`None` and the
empty string are falsy). -/
def todTruthy : Option String → Bool
  | none => false
  | some s => !(s == "")

/-- `data.get(weight_key, float("inf"))`. -/
def EdgeData.baseW (d : EdgeData) : W := d.base.getD ⊤

/-- The congestion factor computed inside `get_edge_weight` of
`dijkstra_time_dependent`: a zero capacity is floored to 1 first, then
`min(1 + traffic_flow / capacity, 5.0)`. -/
def congestionFactor (traffic_flow capacity : ℤ) : ℚ :=
  let capacity : ℤ := if capacity = 0 then 1 else capacity
  min (1 + (traffic_flow : ℚ) / (capacity : ℚ)) 5

/-- The congestion factor computed inside `get_dynamic_edge_weight` of
`a_star_emergency_path`: a zero capacity is floored to 1 first, then
`min(1 + traffic_flow / (capacity * 1.5), 3.0)`. -/
def congestionFactorEmergency (traffic_flow capacity : ℤ) : ℚ :=
  let capacity : ℤ := if capacity = 0 then 1 else capacity
  min (1 + (traffic_flow : ℚ) / ((capacity : ℚ) * (3 / 2))) 3

/-- `get_edge_weight(u, v, data)` of `dijkstra_time_dependent`
(src/traffic_flow/dijkstra_time_dependent.py lines 134-155): the base metric,
multiplied by the capped congestion factor exactly when time-dependent
routing is on, the label is truthy and recognized, and the edge carries the
corresponding traffic bucket. -/
def get_edge_weight (time_dependent : Bool) (time_of_day : Option String)
    (data : EdgeData) : W :=
  if time_dependent && todTruthy time_of_day then
    match time_of_day.bind traffic_col_map with
    | some traffic_attr =>
      match data.getAttr traffic_attr with
      | some traffic_flow =>
          mulW data.baseW
            (congestionFactor traffic_flow (data.base_capacity_veh_hr.getD 1))
      | none => data.baseW
    | none => data.baseW
  else data.baseW

/-- `get_dynamic_edge_weight(u, v, data)` of `a_star_emergency_path`
(src/emergency/astar_emergency.py lines 108-132): like the ordinary weight
but with congestion sensitivity 1.5 and cap 3.0, and the whole effective
weight is always multiplied by `emergency_priority_factor`. -/
def get_dynamic_edge_weight (time_dependent : Bool) (time_of_day : Option String)
    (emergency_priority_factor : ℚ) (data : EdgeData) : W :=
  mulW
    (if time_dependent && todTruthy time_of_day then
      match time_of_day.bind traffic_col_map with
      | some traffic_attr =>
        match data.getAttr traffic_attr with
        | some traffic_flow =>
            mulW data.baseW
              (congestionFactorEmergency traffic_flow (data.base_capacity_veh_hr.getD 1))
        | none => data.baseW
      | none => data.baseW
    else data.baseW)
    emergency_priority_factor

/-- Natural square root by bounded search: the largest `k ≤ n` with
`k * k ≤ n`. -/
def natSqrt (n : ℕ) : ℕ :=
  ((List.range (n + 1)).filter (fun k => k * k ≤ n)).foldr max 0

/-- Model of `math.sqrt` on the exact rationals: componentwise integer
square root, exact whenever the radicand is a perfect square (as in every
concrete evaluation below); a float square root agrees there. -/
def ratSqrt (q : ℚ) : ℚ := (natSqrt q.num.toNat : ℚ) / (natSqrt q.den : ℚ)

/-- `heuristic_distance(graph, node1_id, node2_id)` of astar_emergency.py:
Euclidean distance from node coordinates, degrading to 0 when any coordinate
is missing. -/
def heuristic_distance (g : Graph) (n1 n2 : Node) : ℚ :=
  match g.nodes.find? (fun p => p.1 == n1), g.nodes.find? (fun p => p.1 == n2) with
  | some p1, some p2 =>
    match p1.2.x, p1.2.y, p2.2.x, p2.2.y with
    | some x1, some y1, some x2, some y2 =>
        ratSqrt ((x1 - x2) * (x1 - x2) + (y1 - y2) * (y1 - y2))
    | _, _, _, _ => 0
  | _, _ => 0

/-- The consecutive node pairs of a path. -/
def pathPairs (p : List Node) : List (Node × Node) := p.zip p.tail

/-- Sum of an edge-weight function over the edges of a path, looking each
consecutive pair up in the graph (the per-path length recomputation the
routers perform after the search); a missing edge contributes `inf`. -/
def pathLength (g : Graph) (wf : EdgeData → W) (p : List Node) : W :=
  ((pathPairs p).map (fun pr =>
    match g.get_edge_data pr.1 pr.2 with
    | some d => wf d
    | none => (⊤ : W))).sum

/-- `get_path_length(path, graph, weight_key)` of yen_alternate_routes.py:
static base-metric length of a path; a missing edge or missing weight key
yields `inf` (the code returns `inf` at once, this sum is `inf` as well
because `inf` absorbs addition in `W`). -/
def get_path_length (g : Graph) (p : List Node) : W :=
  pathLength g (fun d => d.base.getD ⊤) p

/-- `p` is a nonempty walk in `g` from `a` to `b` along existing directed
edges. -/
def IsPath (g : Graph) (a b : Node) (p : List Node) : Prop :=
  p.head? = some a ∧ p.getLast? = some b ∧
  ∀ pr ∈ pathPairs p, (g.get_edge_data pr.1 pr.2).isSome

instance (g : Graph) (a b : Node) (p : List Node) : Decidable (IsPath g a b p) := by
  unfold IsPath; infer_instance

/-- A frontier element of the best-first search: heap priority (tentative
distance plus heuristic), tentative distance, node, and the tree path from
the source to the node. -/
structure Entry where
  prio : W
  dist : W
  node : Node
  path : List Node
deriving DecidableEq

/-- Pop the earliest-pushed minimum-priority element (`heapq` with an
insertion counter breaks priority ties in favor of the earliest push). -/
def popMin : List Entry → Option (Entry × List Entry)
  | [] => none
  | e :: es =>
    match popMin es with
    | none => some (e, es)
    | some (m, rest) => if e.prio ≤ m.prio then some (e, es) else some (m, e :: rest)

/-- The node keys of the finalized-distance map. -/
def finKeys (fin : List (Node × W)) : List Node := fin.map Prod.fst

/-- Relaxation of the newly finalized node: push one frontier entry per
outgoing edge whose head is not finalized. -/
def relaxSucc (g : Graph) (wf : EdgeData → W) (h : Node → ℚ) (fin : List (Node × W))
    (e : Entry) : List Entry :=
  (g.succ e.node).filterMap (fun vd =>
    if vd.1 ∈ finKeys fin then none
    else
      let d := e.dist + wf vd.2
      some { prio := d + (WithTop.some (h vd.1)), dist := d, node := vd.1,
             path := e.path ++ [vd.1] })

/-- Modelled from the spec: the single-pair best-first search performed by
the library calls `nx.dijkstra_path` (heuristic 0) and `nx.astar_path`,
which are not part of this repository (spec sections 4.3 and 4.5): a
priority queue keyed by tentative cost plus heuristic, decrease-key by
reinsertion, nodes finalized at first pop, stale queue entries skipped on
pop, searches stop when the target is popped; returns the tree path to the
target, or `None` when the queue empties.  Fuel-indexed; the supplied fuel
strictly exceeds the total number of queue insertions. -/
def searchLoop (g : Graph) (wf : EdgeData → W) (h : Node → ℚ) (t : Node) :
    Nat → List (Node × W) → List Entry → Option (List Node)
  | 0, _, _ => none
  | fuel + 1, fin, fr =>
    match popMin fr with
    | none => none
    | some (e, rest) =>
      if e.node ∈ finKeys fin then searchLoop g wf h t fuel fin rest
      else if e.node = t then some e.path
      else searchLoop g wf h t fuel ((e.node, e.dist) :: fin)
        (rest ++ relaxSucc g wf h ((e.node, e.dist) :: fin) e)

/-- Fuel bound for the search: one more than the initial insertion plus one
insertion per directed edge. -/
def searchFuel (g : Graph) : Nat := g.edges.length + g.nodes.length + 2

/-- The single-pair search from `s` to `t` (see `searchLoop`). -/
def bestFirstPath (g : Graph) (wf : EdgeData → W) (h : Node → ℚ)
    (s t : Node) : Option (List Node) :=
  searchLoop g wf h t (searchFuel g)
    [] [{ prio := WithTop.some (h s), dist := 0, node := s, path := [s] }]

/-- `dijkstra_time_dependent(graph, source, target, weight_key,
time_dependent, time_of_day)` (lines 114-174): `(None, None)` when an
endpoint is absent, otherwise the Dijkstra path under `get_edge_weight`
with the returned length recomputed by summing `get_edge_weight` along the
path; `(None, None)` again when no path exists. -/
def dijkstra_time_dependent (g : Graph) (source target : Node)
    (time_dependent : Bool := false) (time_of_day : Option String := none) :
    Option (List Node × W) :=
  if g.has_node source ∧ g.has_node target then
    match bestFirstPath g (get_edge_weight time_dependent time_of_day)
        (fun _ => 0) source target with
    | some path =>
        some (path, pathLength g (get_edge_weight time_dependent time_of_day) path)
    | none => none
  else none

/-- `a_star_emergency_path(graph, source, target, weight_key, time_dependent,
time_of_day, emergency_priority_factor)` (lines 86-152): A* under
`get_dynamic_edge_weight` with heuristic `heuristic_distance(graph, u, target)
* emergency_priority_factor`, the returned length recomputed by summing
`get_dynamic_edge_weight` along the path; `(None, None)` on an absent
endpoint or no path. -/
def a_star_emergency_path (g : Graph) (source target : Node)
    (time_dependent : Bool := false) (time_of_day : Option String := none)
    (emergency_priority_factor : ℚ := 1) : Option (List Node × W) :=
  if g.has_node source ∧ g.has_node target then
    match bestFirstPath g
        (get_dynamic_edge_weight time_dependent time_of_day emergency_priority_factor)
        (fun v => heuristic_distance g v target * emergency_priority_factor)
        source target with
    | some path =>
        some (path, pathLength g
          (get_dynamic_edge_weight time_dependent time_of_day emergency_priority_factor) path)
    | none => none
  else none

/-- The edge weight of Yen's seed and spur Dijkstra calls, which pass the
weight key as a string: networkx reads `data.get(weight_key, 1)` for string
weights (missing attribute defaults to 1, unlike the callable
`get_edge_weight`, which defaults to `inf`). -/
def yenEdgeWeight (d : EdgeData) : W := d.base.getD 1

/-- `temp_graph` construction: the graph with the listed directed edges
removed. -/
def Graph.removeEdges (g : Graph) (ks : List (Node × Node)) : Graph :=
  { nodes := g.nodes, edges := g.edges.filter (fun e => !(ks.contains (e.1, e.2.1))) }

/-- Python list comparison on node sequences (used by `heapq` to order
`(length, path)` tuples with equal lengths). -/
def nodeListLe : List Node → List Node → Bool
  | [], _ => true
  | _ :: _, [] => false
  | a :: as, b :: bs => if a < b then true else if b < a then false else nodeListLe as bs

/-- `heapq` ordering on `(length, path)` tuples. -/
def candLe (a b : W × List Node) : Bool :=
  if a.1 < b.1 then true else if b.1 < a.1 then false else nodeListLe a.2 b.2

/-- `heappop`: remove a least `(length, path)` tuple. -/
def popCand : List (W × List Node) → Option ((W × List Node) × List (W × List Node))
  | [] => none
  | c :: cs =>
    match popCand cs with
    | none => some (c, cs)
    | some (m, rest) => if candLe c m then some (c, cs) else some (m, c :: rest)

/-- The root path of a spur iteration: `prev_path[:i+1]`. -/
def spurRoot (prev : List Node) (i : Nat) : List Node := prev.take (i + 1)

/-- The edges removed before a spur search: for every accepted path that
shares the current root prefix, its outgoing edge at the spur position.
(Where the Python indexing `path_val[i+1]` would fail because an accepted
path equals the root prefix, the removal is skipped.) -/
def spurRemoved (A : List (W × List Node)) (root_path : List Node) (i : Nat) :
    List (Node × Node) :=
  A.filterMap (fun ap =>
    if ap.2.length > i ∧ ap.2.take (i + 1) = root_path then
      match ap.2.get? i, ap.2.get? (i + 1) with
      | some u, some v => some (u, v)
      | _, _ => none
    else none)

/-- One spur iteration of `yen_k_shortest_paths` at spur index `i` along the
previous accepted path (lines 122-173): remove every edge that a previously
accepted path sharing the current root prefix takes out of the spur node,
run the spur Dijkstra on the filtered copy (`temp_graph`), splice root and
spur path, and keep the candidate unless it is already an accepted path. -/
def spurStep (g : Graph) (t : Node) (A : List (W × List Node))
    (prev : List Node) (i : Nat) : Option (W × List Node) :=
  match prev.get? i with
  | none => none
  | some spur_node =>
    match bestFirstPath (g.removeEdges (spurRemoved A (spurRoot prev i) i))
        yenEdgeWeight (fun _ => 0) spur_node t with
    | some spur_path =>
      if A.any (fun ap => ap.2 = (spurRoot prev i).dropLast ++ spur_path) then none
      else some (get_path_length g ((spurRoot prev i).dropLast ++ spur_path),
        (spurRoot prev i).dropLast ++ spur_path)
    | none => none

/-- The `while B and not added_to_A` loop: pop candidates until one appears
whose node sequence is not already accepted, or the heap empties. -/
def drainB (A : List (W × List Node)) :
    Nat → List (W × List Node) →
    Option (W × List Node) × List (W × List Node)
  | 0, B => (none, B)
  | fuel + 1, B =>
    match popCand B with
    | none => (none, B)
    | some (c, rest) =>
      if A.any (fun ap => ap.2 = c.2) then drainB A fuel rest else (some c, rest)

/-- The `for k in range(1, K)` loop of `yen_k_shortest_paths`: each
iteration spurs off the most recently accepted path (`A[k-1]`, which is the
last element of `A` since each earlier iteration accepted exactly one path),
pushes the new candidates, then accepts the cheapest unseen candidate;
stops early when no candidate remains. -/
def yenLoop (g : Graph) (t : Node) :
    Nat → List (W × List Node) → List (W × List Node) →
    List (W × List Node) × List (W × List Node)
  | 0, A, B => (A, B)
  | n + 1, A, B =>
    match A.getLast? with
    | none => (A, B)
    | some prev =>
      let cands := (List.range (prev.2.length - 1)).filterMap (spurStep g t A prev.2)
      let B1 := B ++ cands
      match drainB A B1.length B1 with
      | (some c, B2) => yenLoop g t n (A ++ [c]) B2
      | (none, B2) => (A, B2)

/-- Python list slicing `l[:k]` for an int `k` (a negative `k` counts from
the end of the list). -/
def pySlice (k : ℤ) (l : List (W × List Node)) : List (W × List Node) :=
  if k < 0 then l.take ((l.length : ℤ) + k).toNat else l.take k.toNat

/-- The comparison of `A.sort(key=lambda x: x[0])`: order by recorded
length only. -/
def candKeyLe (a b : W × List Node) : Prop := a.1 ≤ b.1

instance : DecidableRel candKeyLe :=
  fun a b => inferInstanceAs (Decidable (a.1 ≤ b.1))

instance : IsTotal (W × List Node) candKeyLe := ⟨fun a b => le_total a.1 b.1⟩

instance : IsTrans (W × List Node) candKeyLe :=
  ⟨fun _ _ _ h1 h2 => le_trans h1 h2⟩

/-- `yen_k_shortest_paths(graph, source, target, K, weight_key)` (lines
82-200): seed with the string-weight Dijkstra path, run the spur loop
`K - 1` times, sort the accepted `(length, path)` pairs stably by length
(`list.sort(key=...)` is a stable sort, and any two stable sorts under the
same key agree, so `List.insertionSort` models it exactly) and return the
first `K` paths. -/
def yen_k_shortest_paths (g : Graph) (source target : Node) (K : ℤ := 3) :
    List (List Node) :=
  if g.has_node source ∧ g.has_node target then
    match bestFirstPath g yenEdgeWeight (fun _ => 0) source target with
    | none => []
    | some first_path =>
      let A0 := [(get_path_length g first_path, first_path)]
      let AB := yenLoop g target (K - 1).toNat A0 []
      let sortedA := List.insertionSort candKeyLe AB.1
      (pySlice K sortedA).map (fun ap => ap.2)
  else []

/-- The optional weight is absent or nonnegative. -/
def optNonneg : Option W → Prop
  | none => True
  | some w => 0 ≤ w

instance : ∀ o : Option W, Decidable (optNonneg o)
  | none => isTrue trivial
  | some w => inferInstanceAs (Decidable (0 ≤ w))

/-- The optional integer is absent or nonnegative. -/
def optNonnegZ : Option ℤ → Prop
  | none => True
  | some z => 0 ≤ z

instance : ∀ o : Option ℤ, Decidable (optNonnegZ o)
  | none => isTrue trivial
  | some z => inferInstanceAs (Decidable (0 ≤ z))

/-- All numeric edge data of the graph is nonnegative, as the spec's data
model requires of distances, capacities and traffic volumes. -/
def DataNonneg (g : Graph) : Prop :=
  ∀ e ∈ g.edges, optNonneg e.2.2.base ∧ optNonnegZ e.2.2.base_capacity_veh_hr ∧
    optNonnegZ e.2.2.morning_peak_veh_h ∧ optNonnegZ e.2.2.afternoon_veh_h ∧
    optNonnegZ e.2.2.evening_peak_veh_h ∧ optNonnegZ e.2.2.night_veh_h

instance (g : Graph) : Decidable (DataNonneg g) := by
  unfold DataNonneg; infer_instance

/-- Every edge carries the queried base metric, with a nonnegative value
(the spec's data model materializes the base distance on every edge). -/
def StaticNice (g : Graph) : Prop :=
  ∀ e ∈ g.edges, e.2.2.base.isSome ∧ optNonneg e.2.2.base

instance (g : Graph) : Decidable (StaticNice g) := by
  unfold StaticNice; infer_instance

/-- A node carrying no coordinate attributes. -/
def bareNode : NodeData := ⟨none, none⟩

/-- Edge data carrying only the queried base metric. -/
def baseEdge (q : ℚ) : EdgeData := ⟨some (WithTop.some q), none, none, none, none, none⟩

/-- Edge data lacking the queried base metric. -/
def noKeyEdge : EdgeData := ⟨none, none, none, none, none, none⟩

/-- Evaluation graph: a triangle `0-1-2` with a direct edge `0→2` of weight
10, the two-hop route `0→1→2` of weight 2, and a back edge `1→0`. -/
def gTri : Graph := ⟨[(0, bareNode), (1, bareNode), (2, bareNode)],
  [(0, 1, baseEdge 1), (1, 2, baseEdge 1), (1, 0, baseEdge 1), (0, 2, baseEdge 10)]⟩

/-- Evaluation graph whose two-hop route lacks the queried base metric. -/
def gNoKey : Graph := ⟨[(0, bareNode), (1, bareNode), (2, bareNode)],
  [(0, 2, baseEdge 10), (0, 1, noKeyEdge), (1, 2, noKeyEdge)]⟩

/-- Evaluation graph whose coordinates make the A* heuristic overestimate
the remaining distance through node 1. -/
def gCoord : Graph :=
  ⟨[(0, ⟨some 0, some 0⟩), (1, ⟨some 5, some 0⟩), (2, ⟨some 0, some 0⟩)],
  [(0, 1, baseEdge 1), (1, 2, baseEdge 1), (0, 2, baseEdge 3)]⟩

/-- Evaluation graph with an isolated node 2. -/
def gIso : Graph := ⟨[(0, bareNode), (1, bareNode), (2, bareNode)], [(0, 1, baseEdge 1)]⟩

/-- Edge data of a zero-capacity road with a small traffic volume. -/
def zeroCapEdge : EdgeData := ⟨some (WithTop.some 1), some 0, some 1, none, none, none⟩

/-- Edge data with base metric 2, capacity 4 and a morning traffic volume
of 2. -/
def trafEdge : EdgeData := ⟨some (WithTop.some 2), some 4, some 2, none, none, none⟩

/-! ### Facts about the priority queue -/

theorem popMin_eq_none {l : List Entry} : popMin l = none ↔ l = [] := by
  cases l with
  | nil => simp [popMin]
  | cons e es =>
    simp only [popMin]
    cases h : popMin es with
    | none => simp
    | some p =>
      obtain ⟨m, rest⟩ := p
      by_cases hle : e.prio ≤ m.prio <;> simp [hle]

theorem popMin_spec : ∀ {l : List Entry} {e : Entry} {rest : List Entry},
    popMin l = some (e, rest) → ∃ l₁ l₂, l = l₁ ++ e :: l₂ ∧ rest = l₁ ++ l₂ := by
  intro l
  induction l with
  | nil => intro e rest h; simp [popMin] at h
  | cons a as ih =>
    intro e rest h
    simp only [popMin] at h
    cases hm : popMin as with
    | none =>
      rw [hm] at h
      simp only [Option.some.injEq, Prod.mk.injEq] at h
      obtain ⟨he, hr⟩ := h
      exact ⟨[], as, by simp [he.symm], by simp [hr.symm]⟩
    | some p =>
      obtain ⟨m, r⟩ := p
      rw [hm] at h
      by_cases hle : a.prio ≤ m.prio
      · simp only [hle, if_true, Option.some.injEq, Prod.mk.injEq] at h
        obtain ⟨he, hr⟩ := h
        exact ⟨[], as, by simp [he.symm], by simp [hr.symm]⟩
      · simp only [hle, Bool.false_eq_true, if_false, Option.some.injEq,
          Prod.mk.injEq] at h
        obtain ⟨l₁, l₂, h1, h2⟩ := ih hm
        refine ⟨a :: l₁, l₂, ?_, ?_⟩
        · simp [h1, h.1.symm]
        · simp [← h.2, h2]

theorem popMin_min : ∀ {l : List Entry} {e : Entry} {rest : List Entry},
    popMin l = some (e, rest) → ∀ x ∈ l, e.prio ≤ x.prio := by
  intro l
  induction l with
  | nil => intro e rest h; simp [popMin] at h
  | cons a as ih =>
    intro e rest h x hx
    simp only [popMin] at h
    cases hm : popMin as with
    | none =>
      rw [hm] at h
      simp only [Option.some.injEq, Prod.mk.injEq] at h
      obtain ⟨he, hr⟩ := h
      have has : as = [] := popMin_eq_none.mp hm
      subst has
      simp only [List.mem_singleton] at hx
      subst hx; subst he; exact le_refl _
    | some p =>
      obtain ⟨m, r⟩ := p
      rw [hm] at h
      by_cases hle : a.prio ≤ m.prio
      · simp only [hle, if_true, Option.some.injEq, Prod.mk.injEq] at h
        obtain ⟨he, _⟩ := h
        subst he
        rcases List.mem_cons.mp hx with hxa | hxas
        · subst hxa; exact le_refl _
        · exact le_trans hle (ih hm x hxas)
      · simp only [hle, if_false, Option.some.injEq, Prod.mk.injEq] at h
        obtain ⟨he, _⟩ := h
        subst he
        rcases List.mem_cons.mp hx with hxa | hxas
        · subst hxa; exact le_of_not_le hle
        · exact ih hm x hxas

theorem popMin_mem {l : List Entry} {e : Entry} {rest : List Entry}
    (h : popMin l = some (e, rest)) : e ∈ l := by
  obtain ⟨l₁, l₂, h1, _⟩ := popMin_spec h
  subst h1; simp

theorem popMin_rest_subset {l : List Entry} {e : Entry} {rest : List Entry}
    (h : popMin l = some (e, rest)) : ∀ x ∈ rest, x ∈ l := by
  obtain ⟨l₁, l₂, h1, h2⟩ := popMin_spec h
  subst h1; subst h2
  intro x hx
  rcases List.mem_append.mp hx with h | h
  · exact List.mem_append.mpr (Or.inl h)
  · exact List.mem_append.mpr (Or.inr (List.mem_cons_of_mem _ h))

theorem popMin_cover {l : List Entry} {e : Entry} {rest : List Entry}
    (h : popMin l = some (e, rest)) : ∀ x ∈ l, x = e ∨ x ∈ rest := by
  obtain ⟨l₁, l₂, h1, h2⟩ := popMin_spec h
  subst h1; subst h2
  intro x hx
  rcases List.mem_append.mp hx with h | h
  · exact Or.inr (List.mem_append.mpr (Or.inl h))
  · rcases List.mem_cons.mp h with h | h
    · exact Or.inl h
    · exact Or.inr (List.mem_append.mpr (Or.inr h))

theorem popMin_length {l : List Entry} {e : Entry} {rest : List Entry}
    (h : popMin l = some (e, rest)) : l.length = rest.length + 1 := by
  obtain ⟨l₁, l₂, h1, h2⟩ := popMin_spec h
  subst h1; subst h2
  simp [List.length_append]
  omega

/-! ### Facts about adjacency and edge lookup -/

theorem mem_succ {g : Graph} {u v : Node} {d : EdgeData} :
    (v, d) ∈ g.succ u ↔ (u, v, d) ∈ g.edges := by
  unfold Graph.succ
  constructor
  · intro h
    obtain ⟨e, he, hmap⟩ := List.mem_map.mp h
    obtain ⟨a, bb, c⟩ := e
    have hf := (List.mem_filter.mp he).2
    simp only [beq_iff_eq] at hf
    injection hmap with hb hc
    subst hf; subst hb; subst hc
    exact (List.mem_filter.mp he).1
  · intro h
    exact List.mem_map.mpr ⟨(u, v, d), List.mem_filter.mpr ⟨h, by simp⟩, rfl⟩

theorem get_edge_data_mem {g : Graph} {u v : Node} {d : EdgeData}
    (h : g.get_edge_data u v = some d) : (u, v, d) ∈ g.edges := by
  unfold Graph.get_edge_data at h
  cases hf : g.edges.find? (fun e => e.1 == u && e.2.1 == v) with
  | none => rw [hf] at h; simp at h
  | some e =>
    rw [hf] at h
    simp only [Option.map_some', Option.some.injEq] at h
    have hmem := List.mem_of_find?_eq_some hf
    have hp := List.find?_some hf
    obtain ⟨a, b, c⟩ := e
    simp only [Bool.and_eq_true, beq_iff_eq] at hp
    obtain ⟨ha, hb⟩ := hp
    simp only at h
    subst ha; subst hb; subst h
    exact hmem

theorem get_edge_data_isSome {g : Graph} {u v : Node} {d : EdgeData}
    (h : (u, v, d) ∈ g.edges) : (g.get_edge_data u v).isSome := by
  unfold Graph.get_edge_data
  rw [Option.isSome_map']
  rw [List.find?_isSome]
  exact ⟨(u, v, d), h, by simp⟩

theorem get_edge_data_eq_of_WF {g : Graph} (hwf : g.WF) {u v : Node} {d : EdgeData}
    (h : (u, v, d) ∈ g.edges) : g.get_edge_data u v = some d := by
  have hs := get_edge_data_isSome h
  cases hd : g.get_edge_data u v with
  | none => rw [hd] at hs; simp at hs
  | some d2 =>
    have hmem := get_edge_data_mem hd
    have hkey : (fun e : Node × Node × EdgeData => (e.1, e.2.1)) (u, v, d2)
        = (fun e : Node × Node × EdgeData => (e.1, e.2.1)) (u, v, d) := rfl
    have := List.inj_on_of_nodup_map hwf.2.1 hmem h hkey
    simp only [Prod.mk.injEq] at this
    rw [this.2.2]

theorem succ_mem_edges {g : Graph} {u : Node} {vd : Node × EdgeData}
    (h : vd ∈ g.succ u) : (u, vd.1, vd.2) ∈ g.edges := by
  obtain ⟨v, d⟩ := vd
  exact mem_succ.mp h

theorem edge_mem_succ {g : Graph} {u v : Node} {d : EdgeData}
    (h : (u, v, d) ∈ g.edges) : (v, d) ∈ g.succ u := mem_succ.mpr h

/-! ### Facts about path pairs and path lengths -/

theorem pathPairs_cons_cons (a b : Node) (l : List Node) :
    pathPairs (a :: b :: l) = (a, b) :: pathPairs (b :: l) := rfl

theorem pathPairs_cons_of_head? {a y : Node} {L : List Node} (h : L.head? = some y) :
    pathPairs (a :: L) = (a, y) :: pathPairs L := by
  cases L with
  | nil => simp at h
  | cons b l => simp only [List.head?_cons, Option.some.injEq] at h; subst h; rfl

theorem pathPairs_concat : ∀ (p : List Node) (u v : Node), p.getLast? = some u →
    pathPairs (p ++ [v]) = pathPairs p ++ [(u, v)] := by
  intro p
  induction p with
  | nil => intro u v h; simp at h
  | cons a l ih =>
    intro u v h
    cases l with
    | nil =>
      simp only [List.getLast?_singleton, Option.some.injEq] at h
      subst h; rfl
    | cons b l2 =>
      have hlast : (b :: l2).getLast? = some u := by
        rw [← h]; exact List.getLast?_cons_cons.symm
      have hih := ih u v hlast
      have h1 : (a :: b :: l2) ++ [v] = a :: ((b :: l2) ++ [v]) := rfl
      rw [h1, pathPairs_cons_of_head? (show ((b :: l2) ++ [v]).head? = some b by simp),
        hih, pathPairs_cons_cons]
      rfl

theorem pathLength_single (g : Graph) (wf : EdgeData → W) (a : Node) :
    pathLength g wf [a] = 0 := rfl

theorem pathLength_concat (g : Graph) (wf : EdgeData → W) {p : List Node} {u : Node}
    (v : Node) (h : p.getLast? = some u) :
    pathLength g wf (p ++ [v]) = pathLength g wf p +
      (match g.get_edge_data u v with | some d => wf d | none => (⊤ : W)) := by
  unfold pathLength
  rw [pathPairs_concat p u v h, List.map_append, List.sum_append]
  simp

/-! ### Facts about paths -/

theorem IsPath_single {g : Graph} (a : Node) : IsPath g a a [a] := by
  refine ⟨rfl, rfl, ?_⟩
  intro pr hpr
  simp [pathPairs] at hpr

theorem IsPath.concat {g : Graph} {a b v : Node} {p : List Node}
    (h : IsPath g a b p) (he : (g.get_edge_data b v).isSome) :
    IsPath g a v (p ++ [v]) := by
  obtain ⟨h1, h2, h3⟩ := h
  refine ⟨?_, ?_, ?_⟩
  · cases p with
    | nil => simp at h1
    | cons x l => simpa using h1
  · simp
  · intro pr hpr
    rw [pathPairs_concat p b v h2] at hpr
    rcases List.mem_append.mp hpr with h | h
    · exact h3 pr h
    · simp only [List.mem_singleton] at h
      subst h; exact he

theorem IsPath.nonempty {g : Graph} {a b : Node} {p : List Node}
    (h : IsPath g a b p) : p ≠ [] := by
  intro he; subst he; simp [IsPath] at h

theorem IsPath_glue {g : Graph} {m b : Node} :
    ∀ {p : List Node} {a : Node}, IsPath g a m p → ∀ {q : List Node}, IsPath g m b q →
    IsPath g a b (p.dropLast ++ q) := by
  intro p
  induction p with
  | nil => intro a h; exact absurd rfl h.nonempty
  | cons x l ih =>
    intro a h q hq
    obtain ⟨h1, h2, h3⟩ := h
    simp only [List.head?_cons, Option.some.injEq] at h1
    subst h1
    cases l with
    | nil =>
      simp only [List.getLast?_singleton, Option.some.injEq] at h2
      subst h2
      simpa using hq
    | cons y l2 =>
      have htail : IsPath g y m (y :: l2) := by
        refine ⟨rfl, by rw [← h2]; exact List.getLast?_cons_cons.symm, ?_⟩
        intro pr hpr
        exact h3 pr (by rw [pathPairs_cons_cons]; exact List.mem_cons_of_mem _ hpr)
      have hrec := ih htail hq
      have hheadL : ((y :: l2).dropLast ++ q).head? = some y := hrec.1
      have hdrop : (x :: y :: l2).dropLast ++ q = x :: ((y :: l2).dropLast ++ q) := rfl
      rw [hdrop]
      refine ⟨rfl, ?_, ?_⟩
      · cases hL : (y :: l2).dropLast ++ q with
        | nil => rw [hL] at hheadL; simp at hheadL
        | cons z zs =>
          rw [List.getLast?_cons_cons]
          rw [← hL]
          exact hrec.2.1
      · intro pr hpr
        rw [pathPairs_cons_of_head? hheadL] at hpr
        rcases List.mem_cons.mp hpr with h | h
        · subst h
          exact h3 (x, y) (by rw [pathPairs_cons_cons]; exact List.mem_cons_self _ _)
        · exact hrec.2.2 pr h

/-! ### Soundness of the best-first search -/

/-- The invariant of a frontier entry: its path is a duplicate-free walk of
the graph from the source to its node whose proper prefix is finalized, and
its tentative distance is the weight of that walk. -/
def GoodEntry (g : Graph) (wf : EdgeData → W) (s : Node) (fk : List Node)
    (e : Entry) : Prop :=
  ∃ p₀, e.path = p₀ ++ [e.node] ∧ p₀.Nodup ∧ e.node ∉ p₀ ∧ (∀ x ∈ p₀, x ∈ fk) ∧
    e.path.head? = some s ∧
    (∀ pr ∈ pathPairs e.path, (g.get_edge_data pr.1 pr.2).isSome) ∧
    e.dist = pathLength g wf e.path

theorem GoodEntry.mono {g : Graph} {wf : EdgeData → W} {s : Node}
    {fk fk2 : List Node} {e : Entry} (hsub : ∀ x ∈ fk, x ∈ fk2)
    (h : GoodEntry g wf s fk e) : GoodEntry g wf s fk2 e := by
  obtain ⟨p₀, h1, h2, h3, h4, h5, h6, h7⟩ := h
  exact ⟨p₀, h1, h2, h3, fun x hx => hsub x (h4 x hx), h5, h6, h7⟩

theorem GoodEntry.nodup {g : Graph} {wf : EdgeData → W} {s : Node}
    {fk : List Node} {e : Entry} (h : GoodEntry g wf s fk e) : e.path.Nodup := by
  obtain ⟨p₀, h1, h2, h3, _, _, _, _⟩ := h
  rw [h1]
  rw [List.nodup_append]
  exact ⟨h2, List.nodup_singleton _, by simpa using h3⟩

theorem GoodEntry.last {g : Graph} {wf : EdgeData → W} {s : Node}
    {fk : List Node} {e : Entry} (h : GoodEntry g wf s fk e) :
    e.path.getLast? = some e.node := by
  obtain ⟨p₀, h1, _, _, _, _, _, _⟩ := h
  rw [h1]
  exact List.getLast?_concat _

theorem GoodEntry.isPath {g : Graph} {wf : EdgeData → W} {s : Node}
    {fk : List Node} {e : Entry} (h : GoodEntry g wf s fk e) :
    IsPath g s e.node e.path :=
  ⟨h.choose_spec.2.2.2.2.1, h.last, h.choose_spec.2.2.2.2.2.1⟩

theorem goodEntry_init (g : Graph) (wf : EdgeData → W) (s : Node) (fk : List Node)
    (pr : W) : GoodEntry g wf s fk { prio := pr, dist := 0, node := s, path := [s] } := by
  refine ⟨[], rfl, List.nodup_nil, by simp, by simp, rfl, ?_, rfl⟩
  intro x hx
  simp [pathPairs] at hx

theorem relax_good {g : Graph} {wf : EdgeData → W} {h : Node → ℚ} {s : Node}
    {fin : List (Node × W)} {e : Entry} (hwf : g.WF)
    (hge : GoodEntry g wf s (finKeys fin) e) :
    ∀ x ∈ relaxSucc g wf h ((e.node, e.dist) :: fin) e,
      GoodEntry g wf s (finKeys ((e.node, e.dist) :: fin)) x := by
  intro x hx
  obtain ⟨vd, hvd, hfx⟩ := List.mem_filterMap.mp hx
  by_cases hmem : vd.1 ∈ finKeys ((e.node, e.dist) :: fin)
  · rw [if_pos hmem] at hfx; exact absurd hfx (by simp)
  · rw [if_neg hmem] at hfx
    simp only [Option.some.injEq] at hfx
    subst hfx
    obtain ⟨p₀, h1, h2, h3, h4, h5, h6, h7⟩ := hge
    have hkeys : finKeys ((e.node, e.dist) :: fin) = e.node :: finKeys fin := rfl
    have hvpath : vd.1 ∉ e.path := by
      intro hc
      rw [h1] at hc
      rcases List.mem_append.mp hc with hc | hc
      · exact hmem (by rw [hkeys]; exact List.mem_cons_of_mem _ (h4 _ hc))
      · simp only [List.mem_singleton] at hc
        exact hmem (by rw [hkeys, hc]; exact List.mem_cons_self _ _)
    have hedge : (e.node, vd.1, vd.2) ∈ g.edges := succ_mem_edges hvd
    have hlook : g.get_edge_data e.node vd.1 = some vd.2 :=
      get_edge_data_eq_of_WF hwf hedge
    refine ⟨e.path, rfl, ?_, hvpath, ?_, ?_, ?_, ?_⟩
    · exact GoodEntry.nodup ⟨p₀, h1, h2, h3, h4, h5, h6, h7⟩
    · intro y hy
      rw [hkeys, h1] at *
      rcases List.mem_append.mp hy with hy | hy
      · exact List.mem_cons_of_mem _ (h4 _ hy)
      · simp only [List.mem_singleton] at hy
        rw [hy]; exact List.mem_cons_self _ _
    · show (e.path ++ [vd.1]).head? = some s
      cases hp : e.path with
      | nil => rw [hp] at h5; simp at h5
      | cons z zs => rw [← hp]; rw [List.head?_append_of_ne_nil]; exact h5; simp [hp]
    · intro pr hpr
      have hlast : e.path.getLast? = some e.node := by
        rw [h1]; exact List.getLast?_concat _
      rw [pathPairs_concat e.path e.node vd.1 hlast] at hpr
      rcases List.mem_append.mp hpr with hpr | hpr
      · exact h6 pr hpr
      · simp only [List.mem_singleton] at hpr
        subst hpr
        rw [hlook]; rfl
    · show e.dist + wf vd.2 = pathLength g wf (e.path ++ [vd.1])
      have hlast : e.path.getLast? = some e.node := by
        rw [h1]; exact List.getLast?_concat _
      rw [pathLength_concat g wf vd.1 hlast, hlook, h7]

theorem searchLoop_sound {g : Graph} {wf : EdgeData → W} {h : Node → ℚ}
    {t s : Node} (hwf : g.WF) :
    ∀ (fuel : Nat) (fin : List (Node × W)) (fr : List Entry),
    (∀ e ∈ fr, GoodEntry g wf s (finKeys fin) e) →
    ∀ p, searchLoop g wf h t fuel fin fr = some p →
    IsPath g s t p ∧ p.Nodup := by
  intro fuel
  induction fuel with
  | zero => intro fin fr _ p hp; simp [searchLoop] at hp
  | succ n ih =>
    intro fin fr hge p hp
    simp only [searchLoop] at hp
    cases hpop : popMin fr with
    | none => rw [hpop] at hp; simp at hp
    | some epair =>
      obtain ⟨e, rest⟩ := epair
      rw [hpop] at hp
      simp only at hp
      by_cases hfin : e.node ∈ finKeys fin
      · rw [if_pos hfin] at hp
        exact ih fin rest (fun x hx => hge x (popMin_rest_subset hpop x hx)) p hp
      · rw [if_neg hfin] at hp
        by_cases ht : e.node = t
        · rw [if_pos ht] at hp
          simp only [Option.some.injEq] at hp
          subst hp
          have hgee := hge e (popMin_mem hpop)
          subst ht
          exact ⟨hgee.isPath, hgee.nodup⟩
        · rw [if_neg ht] at hp
          refine ih ((e.node, e.dist) :: fin) _ ?_ p hp
          intro x hx
          rcases List.mem_append.mp hx with hx | hx
          · exact (hge x (popMin_rest_subset hpop x hx)).mono
              (fun y hy => List.mem_cons_of_mem _ hy)
          · exact relax_good hwf (hge e (popMin_mem hpop)) x hx

theorem bestFirstPath_sound {g : Graph} {wf : EdgeData → W} {h : Node → ℚ}
    {s t : Node} (hwf : g.WF) {p : List Node}
    (hp : bestFirstPath g wf h s t = some p) : IsPath g s t p ∧ p.Nodup := by
  refine searchLoop_sound hwf (searchFuel g) [] _ ?_ p hp
  intro e he
  simp only [List.mem_singleton] at he
  subst he
  exact goodEntry_init g wf s (finKeys []) _

/-! ### Completeness of the best-first search -/

/-- The number of outgoing edges of the not-yet-finalized nodes. -/
def outSum (g : Graph) (fk : List Node) : ℕ :=
  ((g.nodeKeys.filter (fun u => u ∉ fk)).map (fun u => (g.succ u).length)).sum

theorem sum_map_add_nat (l : List Node) (f g2 : Node → ℕ) :
    (l.map (fun u => f u + g2 u)).sum = (l.map f).sum + (l.map g2).sum := by
  induction l with
  | nil => simp
  | cons a as ih => simp [ih]; omega

theorem sum_ite_zero (a : Node) : ∀ (l : List Node), a ∉ l →
    (l.map (fun u => if a == u then (1 : ℕ) else 0)).sum = 0 := by
  intro l
  induction l with
  | nil => simp
  | cons b bs ih =>
    intro hnv
    have hab : ¬(a == b) = true := by
      simp only [beq_iff_eq]
      intro hc; exact hnv (by rw [hc]; exact List.mem_cons_self _ _)
    simp only [List.map_cons, List.sum_cons, if_neg hab]
    rw [ih (fun hc => hnv (List.mem_cons_of_mem _ hc))]

theorem sum_ite_count (a : Node) : ∀ (l : List Node), l.Nodup →
    (l.map (fun u => if a == u then (1 : ℕ) else 0)).sum ≤ 1 := by
  intro l
  induction l with
  | nil => simp
  | cons b bs ih =>
    intro hnd
    simp only [List.map_cons, List.sum_cons]
    by_cases hab : a = b
    · subst hab
      rw [if_pos (by simp), sum_ite_zero a bs (List.nodup_cons.mp hnd).1]
    · rw [if_neg (by simpa using hab)]
      simpa using ih (List.nodup_cons.mp hnd).2

theorem sum_succ_le (es : List (Node × Node × EdgeData)) :
    ∀ (l : List Node), l.Nodup →
    ((l.map (fun u => ((es.filter (fun e => e.1 == u)).length))).sum) ≤ es.length := by
  induction es with
  | nil => intro l _; simp
  | cons e es2 ih =>
    intro l hnd
    have hpt : ∀ u : Node, ((e :: es2).filter (fun x => x.1 == u)).length =
        (if e.1 == u then (1 : ℕ) else 0) + ((es2.filter (fun x => x.1 == u)).length) := by
      intro u
      rw [List.filter_cons]
      by_cases hc : (e.1 == u) = true
      · rw [if_pos hc, if_pos hc]; simp; omega
      · rw [if_neg hc, if_neg hc]; simp
    calc (l.map (fun u => ((e :: es2).filter (fun x => x.1 == u)).length)).sum
        = (l.map (fun u => (if e.1 == u then (1 : ℕ) else 0) +
            ((es2.filter (fun x => x.1 == u)).length))).sum := by
          congr 1; exact List.map_congr_left (fun u _ => hpt u)
      _ = (l.map (fun u => if e.1 == u then (1 : ℕ) else 0)).sum +
            (l.map (fun u => ((es2.filter (fun x => x.1 == u)).length))).sum :=
          sum_map_add_nat l _ _
      _ ≤ 1 + es2.length := Nat.add_le_add (sum_ite_count e.1 l hnd) (ih l hnd)
      _ = (e :: es2).length := by simp [Nat.add_comm]

theorem outSum_nil_le (g : Graph) (hnd : g.nodeKeys.Nodup) :
    outSum g [] ≤ g.edges.length := by
  unfold outSum
  have hfil : g.nodeKeys.filter (fun u => u ∉ ([] : List Node)) = g.nodeKeys := by
    apply List.filter_eq_self.mpr
    intro a _
    simp
  rw [hfil]
  have hlen : ∀ u : Node, (g.succ u).length = (g.edges.filter (fun e => e.1 == u)).length := by
    intro u; unfold Graph.succ; rw [List.length_map]
  calc (g.nodeKeys.map (fun u => (g.succ u).length)).sum
      = (g.nodeKeys.map (fun u => (g.edges.filter (fun e => e.1 == u)).length)).sum := by
        congr 1; exact List.map_congr_left (fun u _ => hlen u)
    _ ≤ g.edges.length := sum_succ_le g.edges g.nodeKeys hnd

theorem sum_filter_remove (f : Node → ℕ) (v : Node) :
    ∀ (l : List Node) (fk : List Node), l.Nodup → v ∈ l → v ∉ fk →
    ((l.filter (fun u => u ∉ fk)).map f).sum =
      f v + ((l.filter (fun u => u ∉ (v :: fk))).map f).sum := by
  intro l
  induction l with
  | nil => intro fk _ hv _; simp at hv
  | cons a as ih =>
    intro fk hnd hv hnfk
    obtain ⟨ha, hnd2⟩ := List.nodup_cons.mp hnd
    by_cases hva : v = a
    · subst hva
      rw [List.filter_cons, List.filter_cons]
      rw [if_pos (by simpa using hnfk), if_neg (by simp)]
      simp only [List.map_cons, List.sum_cons]
      have hfe : as.filter (fun u => u ∉ (v :: fk)) = as.filter (fun u => u ∉ fk) := by
        apply List.filter_congr
        intro x hx
        have hxv : x ≠ v := fun hc => ha (hc ▸ hx)
        simp [List.mem_cons, hxv]
      rw [hfe]
    · have hvas : v ∈ as := by
        rcases List.mem_cons.mp hv with hc | hc
        · exact absurd hc hva
        · exact hc
      by_cases hafk : a ∈ fk
      · rw [List.filter_cons, List.filter_cons]
        rw [if_neg (by simpa using hafk), if_neg (by simp [List.mem_cons, hafk])]
        exact ih fk hnd2 hvas hnfk
      · rw [List.filter_cons, List.filter_cons]
        rw [if_pos (by simpa using hafk),
          if_pos (by simp only [decide_eq_true_eq, List.mem_cons, not_or]
                     exact ⟨fun hc => hva hc.symm, hafk⟩)]
        simp only [List.map_cons, List.sum_cons]
        rw [ih fk hnd2 hvas hnfk]
        omega

theorem outSum_remove {g : Graph} {fk : List Node} {v : Node}
    (hnd : g.nodeKeys.Nodup) (hv : v ∈ g.nodeKeys) (hnfk : v ∉ fk) :
    outSum g fk = (g.succ v).length + outSum g (v :: fk) :=
  sum_filter_remove (fun u => (g.succ u).length) v g.nodeKeys fk hnd hv hnfk

theorem IsPath_cons_elim {g : Graph} {a z x y : Node} {l2 : List Node}
    (h : IsPath g a z (x :: y :: l2)) :
    a = x ∧ (g.get_edge_data x y).isSome ∧ IsPath g y z (y :: l2) := by
  obtain ⟨h1, h2, h3⟩ := h
  simp only [List.head?_cons, Option.some.injEq] at h1
  subst h1
  refine ⟨rfl, ?_, rfl, ?_, ?_⟩
  · exact h3 (x, y) (by rw [pathPairs_cons_cons]; exact List.mem_cons_self _ _)
  · rw [← h2]; exact List.getLast?_cons_cons.symm
  · intro pr hpr
    exact h3 pr (by rw [pathPairs_cons_cons]; exact List.mem_cons_of_mem _ hpr)

theorem reach_closed {g : Graph} {F : List Node}
    (hcl : ∀ u ∈ F, ∀ vd ∈ g.succ u, vd.1 ∈ F) :
    ∀ (p : List Node) (a z : Node), IsPath g a z p → a ∈ F → z ∈ F := by
  intro p
  induction p with
  | nil => intro a z h; exact absurd rfl h.nonempty
  | cons x l ih =>
    intro a z h haF
    cases l with
    | nil =>
      obtain ⟨h1, h2, _⟩ := h
      simp only [List.head?_cons, Option.some.injEq] at h1
      simp only [List.getLast?_singleton, Option.some.injEq] at h2
      subst h1; subst h2; exact haF
    | cons y l2 =>
      obtain ⟨hax, hedge, htail⟩ := IsPath_cons_elim h
      obtain ⟨d, hd⟩ := Option.isSome_iff_exists.mp hedge
      have hsucc : (y, d) ∈ g.succ x := edge_mem_succ (get_edge_data_mem hd)
      have hyF : y ∈ F := hcl x (hax ▸ haF) (y, d) hsucc
      exact ih y z htail hyF

theorem relax_node_keys {g : Graph} {wf : EdgeData → W} {h : Node → ℚ}
    {fin : List (Node × W)} {e : Entry} (hwf : g.WF) :
    ∀ x ∈ relaxSucc g wf h fin e, x.node ∈ g.nodeKeys := by
  intro x hx
  obtain ⟨vd, hvd, hfx⟩ := List.mem_filterMap.mp hx
  by_cases hv : vd.1 ∈ finKeys fin
  · rw [if_pos hv] at hfx; simp at hfx
  · rw [if_neg hv] at hfx
    simp only [Option.some.injEq] at hfx
    subst hfx
    exact (hwf.2.2 _ (succ_mem_edges hvd)).2

theorem relax_witness {g : Graph} {wf : EdgeData → W} {h : Node → ℚ}
    {fin : List (Node × W)} {e : Entry} {vd : Node × EdgeData}
    (hvd : vd ∈ g.succ e.node) (hv : vd.1 ∉ finKeys fin) :
    ∃ x ∈ relaxSucc g wf h fin e, x.node = vd.1 ∧ x.dist = e.dist + wf vd.2 := by
  refine ⟨{ prio := e.dist + wf vd.2 + (WithTop.some (h vd.1)), dist := e.dist + wf vd.2,
            node := vd.1, path := e.path ++ [vd.1] }, ?_, rfl, rfl⟩
  refine List.mem_filterMap.mpr ⟨vd, hvd, ?_⟩
  rw [if_neg hv]

theorem searchLoop_complete {g : Graph} {wf : EdgeData → W} {h : Node → ℚ}
    {t s : Node} (hwf : g.WF) (hpath : ∃ p, IsPath g s t p) :
    ∀ (fuel : Nat) (fin : List (Node × W)) (fr : List Entry),
    fr.length + outSum g (finKeys fin) < fuel →
    t ∉ finKeys fin →
    (∀ u ∈ finKeys fin, ∀ vd ∈ g.succ u, vd.1 ∈ finKeys fin ∨ ∃ e ∈ fr, e.node = vd.1) →
    (s ∈ finKeys fin ∨ ∃ e ∈ fr, e.node = s) →
    (∀ x ∈ finKeys fin, x ∈ g.nodeKeys) →
    (finKeys fin).Nodup →
    (∀ e ∈ fr, e.node ∈ g.nodeKeys) →
    ∃ p, searchLoop g wf h t fuel fin fr = some p := by
  intro fuel
  induction fuel with
  | zero => intro fin fr hm; omega
  | succ n ih =>
    intro fin fr hm htnf hbd hsb hfkk hfknd hfrk
    simp only [searchLoop]
    cases hpop : popMin fr with
    | none =>
      exfalso
      have hfr : fr = [] := popMin_eq_none.mp hpop
      subst hfr
      have hsF : s ∈ finKeys fin := by
        rcases hsb with hs | ⟨e, he, _⟩
        · exact hs
        · simp at he
      have hcl : ∀ u ∈ finKeys fin, ∀ vd ∈ g.succ u, vd.1 ∈ finKeys fin := by
        intro u hu vd hvd
        rcases hbd u hu vd hvd with hc | ⟨e, he, _⟩
        · exact hc
        · simp at he
      obtain ⟨p, hp⟩ := hpath
      exact htnf (reach_closed hcl p s t hp hsF)
    | some epair =>
      obtain ⟨e, rest⟩ := epair
      simp only
      by_cases hfin : e.node ∈ finKeys fin
      · rw [if_pos hfin]
        apply ih fin rest
        · have := popMin_length hpop; omega
        · exact htnf
        · intro u hu vd hvd
          rcases hbd u hu vd hvd with hl | ⟨x, hx, hxn⟩
          · exact Or.inl hl
          · rcases popMin_cover hpop x hx with hxe | hxr
            · subst hxe; exact Or.inl (hxn ▸ hfin)
            · exact Or.inr ⟨x, hxr, hxn⟩
        · rcases hsb with hl | ⟨x, hx, hxn⟩
          · exact Or.inl hl
          · rcases popMin_cover hpop x hx with hxe | hxr
            · subst hxe; exact Or.inl (hxn ▸ hfin)
            · exact Or.inr ⟨x, hxr, hxn⟩
        · exact hfkk
        · exact hfknd
        · exact fun x hx => hfrk x (popMin_rest_subset hpop x hx)
      · rw [if_neg hfin]
        by_cases ht : e.node = t
        · rw [if_pos ht]; exact ⟨e.path, rfl⟩
        · rw [if_neg ht]
          have hkeys : finKeys ((e.node, e.dist) :: fin) = e.node :: finKeys fin := rfl
          have henk : e.node ∈ g.nodeKeys := hfrk e (popMin_mem hpop)
          apply ih
          · rw [List.length_append, hkeys]
            have hrm : outSum g (finKeys fin) =
                (g.succ e.node).length + outSum g (e.node :: finKeys fin) :=
              outSum_remove hwf.1 henk hfin
            have hrel : (relaxSucc g wf h ((e.node, e.dist) :: fin) e).length ≤
                (g.succ e.node).length := List.length_filterMap_le _ _
            have hlen := popMin_length hpop
            omega
          · rw [hkeys]
            intro hc
            rcases List.mem_cons.mp hc with hc | hc
            · exact ht hc.symm
            · exact htnf hc
          · rw [hkeys]
            intro u hu vd hvd
            rcases List.mem_cons.mp hu with hu | hu
            · subst hu
              by_cases hv : vd.1 ∈ finKeys ((e.node, e.dist) :: fin)
              · exact Or.inl hv
              · obtain ⟨x, hx, hxn, _⟩ := relax_witness hvd hv
                exact Or.inr ⟨x, List.mem_append.mpr (Or.inr hx), hxn⟩
            · rcases hbd u hu vd hvd with hl | ⟨x, hx, hxn⟩
              · exact Or.inl (List.mem_cons_of_mem _ hl)
              · rcases popMin_cover hpop x hx with hxe | hxr
                · subst hxe
                  exact Or.inl (by rw [← hxn]; exact List.mem_cons_self _ _)
                · exact Or.inr ⟨x, List.mem_append.mpr (Or.inl hxr), hxn⟩
          · rw [hkeys]
            rcases hsb with hl | ⟨x, hx, hxn⟩
            · exact Or.inl (List.mem_cons_of_mem _ hl)
            · rcases popMin_cover hpop x hx with hxe | hxr
              · subst hxe
                exact Or.inl (by rw [← hxn]; exact List.mem_cons_self _ _)
              · exact Or.inr ⟨x, List.mem_append.mpr (Or.inl hxr), hxn⟩
          · rw [hkeys]
            intro x hx
            rcases List.mem_cons.mp hx with hx | hx
            · subst hx; exact henk
            · exact hfkk x hx
          · rw [hkeys]
            exact List.nodup_cons.mpr ⟨hfin, hfknd⟩
          · intro x hx
            rcases List.mem_append.mp hx with hx | hx
            · exact hfrk x (popMin_rest_subset hpop x hx)
            · exact relax_node_keys hwf x hx

theorem bestFirstPath_complete {g : Graph} {wf : EdgeData → W} {h : Node → ℚ}
    {s t : Node} (hwf : g.WF) (hs : s ∈ g.nodeKeys)
    (hpath : ∃ p, IsPath g s t p) :
    ∃ p, bestFirstPath g wf h s t = some p := by
  apply searchLoop_complete hwf hpath (searchFuel g) []
  · have := outSum_nil_le g hwf.1
    unfold searchFuel
    simp only [List.length_singleton]
    have hkn : finKeys [] = ([] : List Node) := rfl
    rw [hkn]
    omega
  · simp [finKeys]
  · intro u hu; simp [finKeys] at hu
  · exact Or.inr ⟨_, List.mem_singleton_self _, rfl⟩
  · intro x hx; simp [finKeys] at hx
  · simp [finKeys]
  · intro e he
    simp only [List.mem_singleton] at he
    subst he
    exact hs

/-! ### Optimality of the zero-heuristic (Dijkstra) search -/

theorem finKeys_mem {fin : List (Node × W)} {n : Node} :
    n ∈ finKeys fin ↔ ∃ w, (n, w) ∈ fin := by
  unfold finKeys
  constructor
  · intro h
    obtain ⟨ud, hud, he⟩ := List.mem_map.mp h
    exact ⟨ud.2, by rw [← he]; exact hud⟩
  · intro ⟨w, hw⟩
    exact List.mem_map.mpr ⟨(n, w), hw, rfl⟩

theorem pair_mem_finKeys {fin : List (Node × W)} {n : Node} {w : W}
    (h : (n, w) ∈ fin) : n ∈ finKeys fin := finKeys_mem.mpr ⟨w, h⟩

theorem relax_prio_eq_dist {g : Graph} {wf : EdgeData → W} {fin : List (Node × W)}
    {e : Entry} : ∀ x ∈ relaxSucc g wf (fun _ => (0 : ℚ)) fin e, x.prio = x.dist := by
  intro x hx
  obtain ⟨vd, hvd, hfx⟩ := List.mem_filterMap.mp hx
  by_cases hv : vd.1 ∈ finKeys fin
  · rw [if_pos hv] at hfx; simp at hfx
  · rw [if_neg hv] at hfx
    simp only [Option.some.injEq] at hfx
    subst hfx
    show e.dist + wf vd.2 + (WithTop.some (0 : ℚ)) = e.dist + wf vd.2
    have h0 : (WithTop.some (0 : ℚ)) = (0 : W) := rfl
    rw [h0, add_zero]

theorem relax_node_not_fin {g : Graph} {wf : EdgeData → W} {h : Node → ℚ}
    {fin : List (Node × W)} {e : Entry} :
    ∀ x ∈ relaxSucc g wf h fin e, x.node ∉ finKeys fin := by
  intro x hx
  obtain ⟨vd, hvd, hfx⟩ := List.mem_filterMap.mp hx
  by_cases hv : vd.1 ∈ finKeys fin
  · rw [if_pos hv] at hfx; simp at hfx
  · rw [if_neg hv] at hfx
    simp only [Option.some.injEq] at hfx
    subst hfx
    exact hv

theorem IsPath_snoc_elim {g : Graph} {s z a : Node} {l : List Node} (hne : l ≠ [])
    (h : IsPath g s z (l ++ [a])) :
    ∃ y, l.getLast? = some y ∧ IsPath g s y l ∧
      (g.get_edge_data y a).isSome ∧ z = a := by
  obtain ⟨h1, h2, h3⟩ := h
  obtain ⟨y, hy⟩ : ∃ y, l.getLast? = some y := by
    cases hly : l.getLast? with
    | none => exact absurd (List.getLast?_eq_none_iff.mp hly) hne
    | some y => exact ⟨y, rfl⟩
  have hpairs := pathPairs_concat l y a hy
  have hza : z = a := by
    rw [List.getLast?_concat] at h2
    exact (Option.some.injEq _ _ ▸ h2.symm :)
  refine ⟨y, hy, ⟨?_, hy, ?_⟩, ?_, hza⟩
  · rw [List.head?_append_of_ne_nil] at h1
    exact h1
    exact hne
  · intro pr hpr
    exact h3 pr (by rw [hpairs]; exact List.mem_append.mpr (Or.inl hpr))
  · exact h3 (y, a) (by rw [hpairs]; exact List.mem_append.mpr (Or.inr (by simp)))

theorem cov {g : Graph} {wf : EdgeData → W} {s : Node}
    (hnn : ∀ e2 ∈ g.edges, 0 ≤ wf e2.2.2)
    {fin : List (Node × W)} {fr : List Entry}
    (hsb : (∃ dv, (s, dv) ∈ fin ∧ dv ≤ 0) ∨ (∃ e ∈ fr, e.node = s ∧ e.dist ≤ 0))
    (hbq : ∀ ud ∈ fin, ∀ vd ∈ g.succ ud.1,
      (∃ dv, (vd.1, dv) ∈ fin ∧ dv ≤ ud.2 + wf vd.2) ∨
      (∃ e ∈ fr, e.node = vd.1 ∧ e.dist ≤ ud.2 + wf vd.2)) :
    ∀ (p : List Node) (z : Node), IsPath g s z p →
      (∃ dv, (z, dv) ∈ fin ∧ dv ≤ pathLength g wf p) ∨
      (∃ e ∈ fr, e.dist ≤ pathLength g wf p) := by
  intro p
  induction p using List.reverseRecOn with
  | nil => intro z h; exact absurd rfl h.nonempty
  | append_singleton l a ih =>
    intro z h
    by_cases hl : l = []
    · subst hl
      obtain ⟨h1, h2, _⟩ := h
      simp only [List.nil_append, List.head?_cons, Option.some.injEq] at h1
      simp only [List.nil_append, List.getLast?_singleton, Option.some.injEq] at h2
      have hzs : z = s := by rw [← h2, h1]
      have hplen : pathLength g wf ([] ++ [a]) = 0 := rfl
      rw [hzs, hplen]
      rcases hsb with ⟨dv, hm, hd⟩ | ⟨e, he, _, hed⟩
      · exact Or.inl ⟨dv, hm, hd⟩
      · exact Or.inr ⟨e, he, hed⟩
    · obtain ⟨y, hy, hpl, hedge, hza⟩ := IsPath_snoc_elim hl h
      subst hza
      obtain ⟨d, hd⟩ := Option.isSome_iff_exists.mp hedge
      have hedges : (y, z, d) ∈ g.edges := get_edge_data_mem hd
      have hsucc : (z, d) ∈ g.succ y := edge_mem_succ hedges
      have hwd : (0 : W) ≤ wf d := hnn (y, z, d) hedges
      have hplen : pathLength g wf (l ++ [z]) = pathLength g wf l + wf d := by
        rw [pathLength_concat g wf z hy, hd]
      rw [hplen]
      rcases ih y hpl with ⟨dy, hmy, hdy⟩ | ⟨e, he, hed⟩
      · rcases hbq (y, dy) hmy (z, d) hsucc with ⟨dv, hmv, hdv⟩ | ⟨e, he, hen, hed⟩
        · exact Or.inl ⟨dv, hmv, le_trans hdv (add_le_add_right hdy _)⟩
        · exact Or.inr ⟨e, he, le_trans hed (add_le_add_right hdy _)⟩
      · exact Or.inr ⟨e, he, le_trans hed (le_add_of_nonneg_right hwd)⟩

theorem searchLoop_optimal {g : Graph} {wf : EdgeData → W} {t s : Node}
    (hwf : g.WF) (hnn : ∀ e2 ∈ g.edges, 0 ≤ wf e2.2.2) :
    ∀ (fuel : Nat) (fin : List (Node × W)) (fr : List Entry),
    (∀ e ∈ fr, GoodEntry g wf s (finKeys fin) e) →
    (∀ e ∈ fr, e.prio = e.dist) →
    ((∃ dv, (s, dv) ∈ fin ∧ dv ≤ 0) ∨ (∃ e ∈ fr, e.node = s ∧ e.dist ≤ 0)) →
    t ∉ finKeys fin →
    (∀ ud ∈ fin, ∀ vd ∈ g.succ ud.1,
      (∃ dv, (vd.1, dv) ∈ fin ∧ dv ≤ ud.2 + wf vd.2) ∨
      (∃ e ∈ fr, e.node = vd.1 ∧ e.dist ≤ ud.2 + wf vd.2)) →
    (∀ ud ∈ fin, ∀ e ∈ fr, e.node = ud.1 → ud.2 ≤ e.dist) →
    (∀ ud ∈ fin, ∀ p2, IsPath g s ud.1 p2 → ud.2 ≤ pathLength g wf p2) →
    ∀ p, searchLoop g wf (fun _ => (0 : ℚ)) t fuel fin fr = some p →
    ∀ q, IsPath g s t q → pathLength g wf p ≤ pathLength g wf q := by
  intro fuel
  induction fuel with
  | zero => intro fin fr _ _ _ _ _ _ _ p hp; simp [searchLoop] at hp
  | succ n ih =>
    intro fin fr hge hpd hsb htnf hbq hfs hopt p hp q hq
    simp only [searchLoop] at hp
    cases hpop : popMin fr with
    | none => rw [hpop] at hp; simp at hp
    | some epair =>
      obtain ⟨e, rest⟩ := epair
      rw [hpop] at hp
      simp only at hp
      by_cases hfin : e.node ∈ finKeys fin
      · rw [if_pos hfin] at hp
        refine ih fin rest ?_ ?_ ?_ htnf ?_ ?_ hopt p hp q hq
        · exact fun x hx => hge x (popMin_rest_subset hpop x hx)
        · exact fun x hx => hpd x (popMin_rest_subset hpop x hx)
        · rcases hsb with hl | ⟨x, hx, hxn, hxd⟩
          · exact Or.inl hl
          · rcases popMin_cover hpop x hx with hxe | hxr
            · subst hxe
              obtain ⟨dv, hdv⟩ := finKeys_mem.mp hfin
              refine Or.inl ⟨dv, hxn ▸ hdv, ?_⟩
              exact le_trans (hfs (x.node, dv) (hxn ▸ hdv) x (popMin_mem hpop) rfl) hxd
            · exact Or.inr ⟨x, hxr, hxn, hxd⟩
        · intro ud hud vd hvd
          rcases hbq ud hud vd hvd with hl | ⟨x, hx, hxn, hxd⟩
          · exact Or.inl hl
          · rcases popMin_cover hpop x hx with hxe | hxr
            · subst hxe
              have hxfin : x.node ∈ finKeys fin := hfin
              obtain ⟨dv, hdv⟩ := finKeys_mem.mp hxfin
              refine Or.inl ⟨dv, hxn ▸ hdv, ?_⟩
              exact le_trans (hfs (x.node, dv) hdv x (popMin_mem hpop) rfl) hxd
            · exact Or.inr ⟨x, hxr, hxn, hxd⟩
        · exact fun ud hud x hx => hfs ud hud x (popMin_rest_subset hpop x hx)
      · rw [if_neg hfin] at hp
        by_cases ht : e.node = t
        · rw [if_pos ht] at hp
          simp only [Option.some.injEq] at hp
          subst hp
          have hgee := hge e (popMin_mem hpop)
          obtain ⟨_, _, _, _, _, _, _, hdist⟩ := hgee
          rw [← hdist]
          rcases cov hnn hsb hbq q t hq with ⟨dv, hmv, _⟩ | ⟨x, hx, hxd⟩
          · exact absurd (pair_mem_finKeys hmv) (ht ▸ htnf)
          · calc e.dist = e.prio := (hpd e (popMin_mem hpop)).symm
              _ ≤ x.prio := popMin_min hpop x hx
              _ = x.dist := hpd x hx
              _ ≤ pathLength g wf q := hxd
        · rw [if_neg ht] at hp
          have hgee := hge e (popMin_mem hpop)
          have hkeys : finKeys ((e.node, e.dist) :: fin) = e.node :: finKeys fin := rfl
          have hmemh : (e.node, e.dist) ∈ (e.node, e.dist) :: fin :=
            List.mem_cons_self _ _
          have hoptnew : ∀ p2, IsPath g s e.node p2 → e.dist ≤ pathLength g wf p2 := by
            intro p2 hp2
            rcases cov hnn hsb hbq p2 e.node hp2 with ⟨dv, hmv, _⟩ | ⟨x, hx, hxd⟩
            · exact absurd (pair_mem_finKeys hmv) hfin
            · calc e.dist = e.prio := (hpd e (popMin_mem hpop)).symm
                _ ≤ x.prio := popMin_min hpop x hx
                _ = x.dist := hpd x hx
                _ ≤ pathLength g wf p2 := hxd
          refine ih ((e.node, e.dist) :: fin) _ ?_ ?_ ?_ ?_ ?_ ?_ ?_ p hp q hq
          · intro x hx
            rcases List.mem_append.mp hx with hx | hx
            · exact (hge x (popMin_rest_subset hpop x hx)).mono
                (fun y hy => List.mem_cons_of_mem _ hy)
            · exact relax_good hwf hgee x hx
          · intro x hx
            rcases List.mem_append.mp hx with hx | hx
            · exact hpd x (popMin_rest_subset hpop x hx)
            · exact relax_prio_eq_dist x hx
          · rcases hsb with ⟨dv, hdv, hdvle⟩ | ⟨x, hx, hxn, hxd⟩
            · exact Or.inl ⟨dv, List.mem_cons_of_mem _ hdv, hdvle⟩
            · rcases popMin_cover hpop x hx with hxe | hxr
              · subst hxe
                exact Or.inl ⟨x.dist, by rw [← hxn]; exact hmemh, hxd⟩
              · exact Or.inr ⟨x, List.mem_append.mpr (Or.inl hxr), hxn, hxd⟩
          · rw [hkeys]
            intro hc
            rcases List.mem_cons.mp hc with hc | hc
            · exact ht hc.symm
            · exact htnf hc
          · intro ud hud vd hvd
            rcases List.mem_cons.mp hud with hud | hud
            · subst hud
              by_cases hv : vd.1 ∈ finKeys ((e.node, e.dist) :: fin)
              · rw [hkeys] at hv
                rcases List.mem_cons.mp hv with hv | hv
                · refine Or.inl ⟨e.dist, by rw [hv]; exact hmemh, ?_⟩
                  exact le_add_of_nonneg_right (hnn _ (succ_mem_edges hvd))
                · obtain ⟨dv, hdv⟩ := finKeys_mem.mp hv
                  refine Or.inl ⟨dv, List.mem_cons_of_mem _ hdv, ?_⟩
                  have hlook : g.get_edge_data e.node vd.1 = some vd.2 :=
                    get_edge_data_eq_of_WF hwf (succ_mem_edges hvd)
                  have hpath2 : IsPath g s vd.1 (e.path ++ [vd.1]) :=
                    hgee.isPath.concat (by rw [hlook]; rfl)
                  have hlen2 : pathLength g wf (e.path ++ [vd.1]) =
                      e.dist + wf vd.2 := by
                    rw [pathLength_concat g wf vd.1 hgee.last, hlook]
                    obtain ⟨_, _, _, _, _, _, _, hdist⟩ := hgee
                    rw [← hdist]
                  exact hlen2 ▸ hopt (vd.1, dv) hdv _ hpath2
              · obtain ⟨x, hx, hxn, hxd⟩ := relax_witness hvd hv
                exact Or.inr ⟨x, List.mem_append.mpr (Or.inr hx), hxn, le_of_eq hxd⟩
            · rcases hbq ud hud vd hvd with ⟨dv, hdv, hdvle⟩ | ⟨x, hx, hxn, hxd⟩
              · exact Or.inl ⟨dv, List.mem_cons_of_mem _ hdv, hdvle⟩
              · rcases popMin_cover hpop x hx with hxe | hxr
                · subst hxe
                  exact Or.inl ⟨x.dist, by rw [← hxn]; exact hmemh, hxd⟩
                · exact Or.inr ⟨x, List.mem_append.mpr (Or.inl hxr), hxn, hxd⟩
          · intro ud hud x hx
            rcases List.mem_cons.mp hud with hud | hud
            · subst hud
              intro hxn
              rcases List.mem_append.mp hx with hx | hx
              · calc e.dist = e.prio := (hpd e (popMin_mem hpop)).symm
                  _ ≤ x.prio := popMin_min hpop x (popMin_rest_subset hpop x hx)
                  _ = x.dist := hpd x (popMin_rest_subset hpop x hx)
              · exact absurd (show x.node ∈ finKeys ((e.node, e.dist) :: fin) by
                  rw [hxn]; exact List.mem_cons_self _ _) (relax_node_not_fin x hx)
            · intro hxn
              rcases List.mem_append.mp hx with hx | hx
              · exact hfs ud hud x (popMin_rest_subset hpop x hx) hxn
              · exact absurd (show x.node ∈ finKeys ((e.node, e.dist) :: fin) by
                  rw [hxn]; exact List.mem_cons_of_mem _ (pair_mem_finKeys hud))
                  (relax_node_not_fin x hx)
          · intro ud hud p2 hp2
            rcases List.mem_cons.mp hud with hud | hud
            · subst hud; exact hoptnew p2 hp2
            · exact hopt ud hud p2 hp2

theorem bestFirstPath_optimal {g : Graph} {wf : EdgeData → W} {s t : Node}
    (hwf : g.WF) (hnn : ∀ e2 ∈ g.edges, 0 ≤ wf e2.2.2) {p : List Node}
    (hp : bestFirstPath g wf (fun _ => (0 : ℚ)) s t = some p) :
    ∀ q, IsPath g s t q → pathLength g wf p ≤ pathLength g wf q := by
  refine searchLoop_optimal hwf hnn (searchFuel g) [] _ ?_ ?_ ?_ ?_ ?_ ?_ ?_ p hp
  · intro e he
    simp only [List.mem_singleton] at he
    subst he
    exact goodEntry_init g wf s (finKeys []) _
  · intro e he
    simp only [List.mem_singleton] at he
    subst he
    rfl
  · exact Or.inr ⟨_, List.mem_singleton_self _, rfl, le_refl _⟩
  · simp [finKeys]
  · intro ud hud; simp at hud
  · intro ud hud; simp at hud
  · intro ud hud; simp at hud

/-! ### The search depends only on weights of edges and heuristics of nodes -/

theorem filterMap_congr2 {α β : Type} (l : List α) (f1 f2 : α → Option β)
    (h : ∀ x ∈ l, f1 x = f2 x) : l.filterMap f1 = l.filterMap f2 := by
  induction l with
  | nil => rfl
  | cons a as ih =>
    rw [List.filterMap_cons, List.filterMap_cons, h a (List.mem_cons_self _ _),
      ih (fun x hx => h x (List.mem_cons_of_mem _ hx))]

theorem relaxSucc_congr {g : Graph} {wf1 wf2 : EdgeData → W} {h1 h2 : Node → ℚ}
    {fin : List (Node × W)} {e : Entry} (hwf : g.WF)
    (hagree : ∀ e2 ∈ g.edges, wf1 e2.2.2 = wf2 e2.2.2)
    (hh : ∀ v ∈ g.nodeKeys, h1 v = h2 v) :
    relaxSucc g wf1 h1 fin e = relaxSucc g wf2 h2 fin e := by
  unfold relaxSucc
  apply filterMap_congr2
  intro vd hvd
  have hedge := succ_mem_edges hvd
  have hw : wf1 vd.2 = wf2 vd.2 := hagree _ hedge
  have hv : h1 vd.1 = h2 vd.1 := hh vd.1 (hwf.2.2 _ hedge).2
  by_cases hm : vd.1 ∈ finKeys fin
  · rw [if_pos hm, if_pos hm]
  · rw [if_neg hm, if_neg hm]
    simp only [Option.some.injEq]
    rw [hw, hv]

theorem searchLoop_congr {g : Graph} {wf1 wf2 : EdgeData → W} {h1 h2 : Node → ℚ}
    {t : Node} (hwf : g.WF)
    (hagree : ∀ e2 ∈ g.edges, wf1 e2.2.2 = wf2 e2.2.2)
    (hh : ∀ v ∈ g.nodeKeys, h1 v = h2 v) :
    ∀ (fuel : Nat) (fin : List (Node × W)) (fr : List Entry),
    searchLoop g wf1 h1 t fuel fin fr = searchLoop g wf2 h2 t fuel fin fr := by
  intro fuel
  induction fuel with
  | zero => intro fin fr; rfl
  | succ n ih =>
    intro fin fr
    simp only [searchLoop]
    cases hpop : popMin fr with
    | none => rfl
    | some epair =>
      obtain ⟨e, rest⟩ := epair
      simp only
      by_cases hfin : e.node ∈ finKeys fin
      · rw [if_pos hfin, if_pos hfin]; exact ih fin rest
      · rw [if_neg hfin, if_neg hfin]
        by_cases ht : e.node = t
        · rw [if_pos ht, if_pos ht]
        · rw [if_neg ht, if_neg ht]
          rw [relaxSucc_congr hwf hagree hh]
          exact ih _ _

theorem bestFirstPath_congr {g : Graph} {wf1 wf2 : EdgeData → W} {h1 h2 : Node → ℚ}
    {s t : Node} (hwf : g.WF) (hs : s ∈ g.nodeKeys)
    (hagree : ∀ e2 ∈ g.edges, wf1 e2.2.2 = wf2 e2.2.2)
    (hh : ∀ v ∈ g.nodeKeys, h1 v = h2 v) :
    bestFirstPath g wf1 h1 s t = bestFirstPath g wf2 h2 s t := by
  unfold bestFirstPath
  rw [hh s hs]
  exact searchLoop_congr hwf hagree hh _ _ _

theorem pathLength_congr {g : Graph} {wf1 wf2 : EdgeData → W}
    (hagree : ∀ e2 ∈ g.edges, wf1 e2.2.2 = wf2 e2.2.2) (p : List Node) :
    pathLength g wf1 p = pathLength g wf2 p := by
  unfold pathLength
  congr 1
  apply List.map_congr_left
  intro pr _
  cases hd : g.get_edge_data pr.1 pr.2 with
  | none => rfl
  | some d => exact hagree _ (get_edge_data_mem hd)

/-! ### Facts about the weight callbacks -/

theorem mulW_some (q c : ℚ) : mulW (WithTop.some q) c = WithTop.some (q * c) := rfl

theorem mulW_top (c : ℚ) : mulW (⊤ : W) c = ⊤ := rfl

theorem mulW_one (w : W) : mulW w 1 = w := by
  cases w with
  | none => rfl
  | some q => rw [show (some q : W) = WithTop.some q from rfl, mulW_some, mul_one]

theorem mulW_mulW (w : W) (c1 c2 : ℚ) : mulW (mulW w c1) c2 = mulW w (c1 * c2) := by
  cases w with
  | none => rfl
  | some q =>
    rw [show (some q : W) = WithTop.some q from rfl, mulW_some, mulW_some, mulW_some,
      mul_assoc]

theorem gew_false (tod : Option String) (d : EdgeData) :
    get_edge_weight false tod d = d.baseW := rfl

theorem gew_none (td : Bool) (d : EdgeData) :
    get_edge_weight td none d = d.baseW := by
  unfold get_edge_weight
  have h : (td && todTruthy none) = false := by simp [todTruthy]
  rw [h]
  simp

theorem some_bind_col (lbl : String) :
    (some lbl).bind traffic_col_map = traffic_col_map lbl := rfl

theorem gew_unknown (td : Bool) {lbl : String} (hlbl : traffic_col_map lbl = none)
    (d : EdgeData) : get_edge_weight td (some lbl) d = d.baseW := by
  unfold get_edge_weight
  by_cases hc : (td && todTruthy (some lbl)) = true
  · rw [if_pos hc, some_bind_col, hlbl]
  · rw [if_neg hc]

theorem gew_no_bucket (td : Bool) {lbl : String} {attr : TrafficAttr}
    (hlbl : traffic_col_map lbl = some attr) {d : EdgeData}
    (hnb : d.getAttr attr = none) : get_edge_weight td (some lbl) d = d.baseW := by
  unfold get_edge_weight
  by_cases hc : (td && todTruthy (some lbl)) = true
  · rw [if_pos hc, some_bind_col, hlbl]
    simp only
    rw [hnb]
  · rw [if_neg hc]

theorem traffic_col_map_ne_empty {lbl : String} {attr : TrafficAttr}
    (hlbl : traffic_col_map lbl = some attr) : todTruthy (some lbl) = true := by
  unfold todTruthy
  by_cases he : lbl = ""
  · subst he
    have h0 : traffic_col_map "" = none := by decide
    rw [h0] at hlbl
    exact absurd hlbl (by simp)
  · simpa using he

theorem gew_active {lbl : String} {attr : TrafficAttr}
    (hlbl : traffic_col_map lbl = some attr) {d : EdgeData} {flow : ℤ}
    (hflow : d.getAttr attr = some flow) :
    get_edge_weight true (some lbl) d =
      mulW d.baseW (congestionFactor flow (d.base_capacity_veh_hr.getD 1)) := by
  unfold get_edge_weight
  rw [if_pos (by rw [traffic_col_map_ne_empty hlbl]; rfl), some_bind_col, hlbl]
  simp only
  rw [hflow]

theorem gdw_active {lbl : String} {attr : TrafficAttr}
    (hlbl : traffic_col_map lbl = some attr) {d : EdgeData} {flow : ℤ}
    (hflow : d.getAttr attr = some flow) (f : ℚ) :
    get_dynamic_edge_weight true (some lbl) f d =
      mulW (mulW d.baseW
        (congestionFactorEmergency flow (d.base_capacity_veh_hr.getD 1))) f := by
  unfold get_dynamic_edge_weight
  rw [if_pos (by rw [traffic_col_map_ne_empty hlbl]; rfl), some_bind_col, hlbl]
  simp only
  rw [hflow]

theorem gdw_static (tod : Option String) (f : ℚ) (d : EdgeData) :
    get_dynamic_edge_weight false tod f d = mulW d.baseW f := rfl

theorem congestionFactor_nonneg {flow cap : ℤ} (hf : 0 ≤ flow) (hc : 0 ≤ cap) :
    0 ≤ congestionFactor flow cap := by
  unfold congestionFactor
  apply le_min
  · have hcap2 : (0 : ℚ) < ((if cap = 0 then 1 else cap : ℤ) : ℚ) := by
      by_cases h0 : cap = 0
      · rw [if_pos h0]; norm_num
      · rw [if_neg h0]
        exact_mod_cast lt_of_le_of_ne hc (Ne.symm h0)
    have : (0 : ℚ) ≤ (flow : ℚ) / ((if cap = 0 then 1 else cap : ℤ) : ℚ) :=
      div_nonneg (by exact_mod_cast hf) (le_of_lt hcap2)
    linarith
  · norm_num

theorem congestionFactor_le_five (flow cap : ℤ) : congestionFactor flow cap ≤ 5 :=
  min_le_right _ _

theorem congestionFactor_mono {f1 f2 : ℤ} (cap : ℤ) (hc : 0 ≤ cap) (h : f1 ≤ f2) :
    congestionFactor f1 cap ≤ congestionFactor f2 cap := by
  unfold congestionFactor
  have hcap2 : (0 : ℚ) < ((if cap = 0 then 1 else cap : ℤ) : ℚ) := by
    by_cases h0 : cap = 0
    · rw [if_pos h0]; norm_num
    · rw [if_neg h0]
      exact_mod_cast lt_of_le_of_ne hc (Ne.symm h0)
  apply min_le_min _ (le_refl _)
  have hdiv : (f1 : ℚ) / _ ≤ (f2 : ℚ) / _ :=
    (div_le_div_iff_of_pos_right hcap2).mpr (by exact_mod_cast h)
  linarith

theorem congestionFactorEmergency_nonneg {flow cap : ℤ} (hf : 0 ≤ flow) (hc : 0 ≤ cap) :
    0 ≤ congestionFactorEmergency flow cap := by
  unfold congestionFactorEmergency
  apply le_min
  · have hcap2 : (0 : ℚ) < ((if cap = 0 then 1 else cap : ℤ) : ℚ) * (3 / 2) := by
      apply mul_pos _ (by norm_num)
      by_cases h0 : cap = 0
      · rw [if_pos h0]; norm_num
      · rw [if_neg h0]
        exact_mod_cast lt_of_le_of_ne hc (Ne.symm h0)
    have : (0 : ℚ) ≤ (flow : ℚ) / (((if cap = 0 then 1 else cap : ℤ) : ℚ) * (3 / 2)) :=
      div_nonneg (by exact_mod_cast hf) (le_of_lt hcap2)
    linarith
  · norm_num

theorem baseW_nonneg {d : EdgeData} (h : optNonneg d.base) : 0 ≤ d.baseW := by
  unfold EdgeData.baseW
  cases hb : d.base with
  | none => exact le_top
  | some w => rw [hb] at h; exact h

theorem mulW_nonneg {w : W} {c : ℚ} (hw : 0 ≤ w) (hc : 0 ≤ c) : 0 ≤ mulW w c := by
  cases w with
  | none => exact le_top
  | some q =>
    have h1 : mulW (some q) c = WithTop.some (q * c) := rfl
    rw [h1]
    have hq : (0 : ℚ) ≤ q := WithTop.coe_le_coe.mp hw
    exact WithTop.coe_le_coe.mpr (mul_nonneg hq hc)

theorem gew_nonneg {g : Graph} (hnn : DataNonneg g) (td : Bool) (tod : Option String) :
    ∀ e ∈ g.edges, 0 ≤ get_edge_weight td tod e.2.2 := by
  intro e he
  obtain ⟨hb, hcap, hm, ha, hev, hni⟩ := hnn e he
  have hbase : 0 ≤ e.2.2.baseW := baseW_nonneg hb
  unfold get_edge_weight
  by_cases hc : (td && todTruthy tod) = true
  · rw [if_pos hc]
    cases hbind : tod.bind traffic_col_map with
    | none => simpa using hbase
    | some attr =>
      simp only
      cases hattr : e.2.2.getAttr attr with
      | none => simpa using hbase
      | some flow =>
        simp only
        apply mulW_nonneg hbase
        apply congestionFactor_nonneg
        · cases attr with
          | morning_peak_veh_h =>
            have hattr2 : e.2.2.morning_peak_veh_h = some flow := hattr
            rw [hattr2] at hm; exact hm
          | afternoon_veh_h =>
            have hattr2 : e.2.2.afternoon_veh_h = some flow := hattr
            rw [hattr2] at ha; exact ha
          | evening_peak_veh_h =>
            have hattr2 : e.2.2.evening_peak_veh_h = some flow := hattr
            rw [hattr2] at hev; exact hev
          | night_veh_h =>
            have hattr2 : e.2.2.night_veh_h = some flow := hattr
            rw [hattr2] at hni; exact hni
        · cases hcv : e.2.2.base_capacity_veh_hr with
          | none => decide
          | some cv =>
            rw [hcv] at hcap
            exact hcap
  · rw [if_neg hc]
    exact hbase

theorem yenEdgeWeight_nonneg {g : Graph} (hsn : StaticNice g) :
    ∀ e ∈ g.edges, 0 ≤ yenEdgeWeight e.2.2 := by
  intro e he
  obtain ⟨_, hb⟩ := hsn e he
  unfold yenEdgeWeight
  cases hbb : e.2.2.base with
  | none => simp [Option.getD]
  | some w =>
    rw [hbb] at hb
    simpa [Option.getD] using hb

theorem yenEdgeWeight_eq_static {g : Graph} (hsn : StaticNice g) :
    ∀ e ∈ g.edges, yenEdgeWeight e.2.2 = get_edge_weight false none e.2.2 := by
  intro e he
  obtain ⟨hs, _⟩ := hsn e he
  rw [gew_false]
  unfold yenEdgeWeight EdgeData.baseW
  cases hbb : e.2.2.base with
  | none => rw [hbb] at hs; simp at hs
  | some w => rfl

/-! ### Router-level consequences -/

theorem dijkstra_correct_aux (g : Graph) (s t : Node) (td : Bool)
    (tod : Option String) (hwf : g.WF) (hs : g.has_node s) (ht : g.has_node t)
    (hreach : ∃ p, IsPath g s t p) :
    ∃ p c, dijkstra_time_dependent g s t td tod = some (p, c) ∧
      p.head? = some s ∧ p.getLast? = some t ∧ p.Nodup ∧
      (∀ pr ∈ pathPairs p, (g.get_edge_data pr.1 pr.2).isSome) ∧
      c = pathLength g (get_edge_weight td tod) p := by
  unfold dijkstra_time_dependent
  rw [if_pos ⟨hs, ht⟩]
  obtain ⟨p, hp⟩ :=
    @bestFirstPath_complete g (get_edge_weight td tod) (fun _ => 0) s t hwf hs hreach
  rw [hp]
  obtain ⟨hip, hnd⟩ := bestFirstPath_sound hwf hp
  exact ⟨p, _, rfl, hip.1, hip.2.1, hnd, hip.2.2, rfl⟩

theorem dijkstra_none_aux (g : Graph) (s t : Node) (td : Bool)
    (tod : Option String) (hwf : g.WF) :
    (¬ (g.has_node s ∧ g.has_node t) →
      dijkstra_time_dependent g s t td tod = none) ∧
    ((¬ ∃ p, IsPath g s t p) → dijkstra_time_dependent g s t td tod = none) := by
  constructor
  · intro h
    unfold dijkstra_time_dependent
    rw [if_neg h]
  · intro h
    unfold dijkstra_time_dependent
    by_cases hg : g.has_node s ∧ g.has_node t
    · rw [if_pos hg]
      cases hb : bestFirstPath g (get_edge_weight td tod) (fun _ => 0) s t with
      | none => rfl
      | some p => exact absurd ⟨p, (bestFirstPath_sound hwf hb).1⟩ h
    · rw [if_neg hg]

theorem dijkstra_static_equiv_aux (g : Graph) (s t : Node) (td : Bool)
    (tod : Option String) (hwf : g.WF)
    (hcase : td = false ∨ tod = none ∨
      (∃ lbl, tod = some lbl ∧ (traffic_col_map lbl = none ∨
        (∃ attr, traffic_col_map lbl = some attr ∧
          ∀ e ∈ g.edges, e.2.2.getAttr attr = none)))) :
    dijkstra_time_dependent g s t td tod = dijkstra_time_dependent g s t false none := by
  have hagree : ∀ e ∈ g.edges,
      get_edge_weight td tod e.2.2 = get_edge_weight false none e.2.2 := by
    intro e he
    rw [gew_false]
    rcases hcase with hc | hc | ⟨lbl, hlbl, hc⟩
    · subst hc; rw [gew_false]
    · subst hc; rw [gew_none]
    · subst hlbl
      rcases hc with hc | ⟨attr, hattr, hnb⟩
      · rw [gew_unknown td hc]
      · rw [gew_no_bucket td hattr (hnb e he)]
  unfold dijkstra_time_dependent
  by_cases hg : g.has_node s ∧ g.has_node t
  · rw [if_pos hg, if_pos hg]
    rw [bestFirstPath_congr hwf hg.1 hagree (fun v _ => rfl)]
    cases hb : bestFirstPath g (get_edge_weight false none) (fun _ => 0) s t with
    | none => rfl
    | some p =>
      simp only [Option.some.injEq]
      rw [pathLength_congr hagree]
  · rw [if_neg hg, if_neg hg]

theorem astar_degenerate_aux (g : Graph) (s t : Node) (hwf : g.WF)
    (hh : ∀ v ∈ g.nodeKeys, heuristic_distance g v t = 0) :
    a_star_emergency_path g s t false none 1 =
      dijkstra_time_dependent g s t false none := by
  have hagree : ∀ e ∈ g.edges,
      get_dynamic_edge_weight false none 1 e.2.2 = get_edge_weight false none e.2.2 := by
    intro e _
    rw [gdw_static, gew_false, mulW_one]
  have hhagree : ∀ v ∈ g.nodeKeys,
      heuristic_distance g v t * 1 = (fun _ => (0 : ℚ)) v := by
    intro v hv
    rw [mul_one, hh v hv]
  unfold a_star_emergency_path dijkstra_time_dependent
  by_cases hg : g.has_node s ∧ g.has_node t
  · rw [if_pos hg, if_pos hg]
    rw [bestFirstPath_congr hwf hg.1 hagree hhagree]
    cases hb : bestFirstPath g (get_edge_weight false none) (fun _ => 0) s t with
    | none => rfl
    | some p =>
      simp only [Option.some.injEq]
      rw [pathLength_congr hagree]
  · rw [if_neg hg, if_neg hg]

theorem yen_K_nonpos_aux (g : Graph) (s t : Node) (K : ℤ) (hK : K ≤ 0) :
    yen_k_shortest_paths g s t K = [] := by
  unfold yen_k_shortest_paths
  by_cases hg : g.has_node s ∧ g.has_node t
  · rw [if_pos hg]
    cases hb : bestFirstPath g yenEdgeWeight (fun _ => 0) s t with
    | none => rfl
    | some p =>
      simp only
      have hloop : (K - 1).toNat = 0 := by omega
      rw [hloop]
      show (pySlice K (List.insertionSort candKeyLe [(get_path_length g p, p)])).map _ = []
      have hsort : List.insertionSort candKeyLe
          [(get_path_length g p, p)] = [(get_path_length g p, p)] := rfl
      rw [hsort]
      unfold pySlice
      by_cases hneg : K < 0
      · rw [if_pos hneg]
        have h0 : ((([(get_path_length g p, p)] : List (W × List Node)).length : ℤ)
            + K).toNat = 0 := by
          simp only [List.length_singleton]
          omega
        rw [h0]
        rfl
      · rw [if_neg hneg]
        have h0 : K.toNat = 0 := by omega
        rw [h0]
        rfl
  · rw [if_neg hg]

/-! ### Yen's algorithm: candidate paths are real paths -/

theorem popCand_spec : ∀ {l : List (W × List Node)} {c : W × List Node}
    {rest : List (W × List Node)},
    popCand l = some (c, rest) → ∃ l₁ l₂, l = l₁ ++ c :: l₂ ∧ rest = l₁ ++ l₂ := by
  intro l
  induction l with
  | nil => intro c rest h; simp [popCand] at h
  | cons a as ih =>
    intro c rest h
    simp only [popCand] at h
    cases hm : popCand as with
    | none =>
      rw [hm] at h
      simp only [Option.some.injEq, Prod.mk.injEq] at h
      obtain ⟨he, hr⟩ := h
      exact ⟨[], as, by simp [he.symm], by simp [hr.symm]⟩
    | some p =>
      obtain ⟨m, r⟩ := p
      rw [hm] at h
      by_cases hle : candLe a m = true
      · simp only [hle, eq_self_iff_true, if_true, Option.some.injEq,
          Prod.mk.injEq] at h
        obtain ⟨he, hr⟩ := h
        exact ⟨[], as, by simp [he.symm], by simp [hr.symm]⟩
      · simp only [hle, Bool.false_eq_true, if_false, Option.some.injEq,
          Prod.mk.injEq] at h
        obtain ⟨l₁, l₂, h1, h2⟩ := ih hm
        refine ⟨a :: l₁, l₂, ?_, ?_⟩
        · simp [h1, h.1.symm]
        · simp [← h.2, h2]

theorem popCand_mem {l : List (W × List Node)} {c : W × List Node}
    {rest : List (W × List Node)} (h : popCand l = some (c, rest)) : c ∈ l := by
  obtain ⟨l₁, l₂, h1, _⟩ := popCand_spec h
  subst h1; simp

theorem popCand_rest_subset {l : List (W × List Node)} {c : W × List Node}
    {rest : List (W × List Node)} (h : popCand l = some (c, rest)) :
    ∀ x ∈ rest, x ∈ l := by
  obtain ⟨l₁, l₂, h1, h2⟩ := popCand_spec h
  subst h1; subst h2
  intro x hx
  rcases List.mem_append.mp hx with h | h
  · exact List.mem_append.mpr (Or.inl h)
  · exact List.mem_append.mpr (Or.inr (List.mem_cons_of_mem _ h))

theorem getLast?_mem2 {l : List Node} {a : Node} (h : l.getLast? = some a) :
    a ∈ l := by
  induction l with
  | nil => simp at h
  | cons x xs ih =>
    cases xs with
    | nil =>
      simp only [List.getLast?_singleton, Option.some.injEq] at h
      subst h; exact List.mem_singleton_self _
    | cons y ys =>
      rw [List.getLast?_cons_cons] at h
      exact List.mem_cons_of_mem _ (ih h)

theorem getLastPair_mem {l : List (W × List Node)} {a : W × List Node}
    (h : l.getLast? = some a) : a ∈ l := by
  induction l with
  | nil => simp at h
  | cons x xs ih =>
    cases xs with
    | nil =>
      simp only [List.getLast?_singleton, Option.some.injEq] at h
      subst h; exact List.mem_singleton_self _
    | cons y ys =>
      rw [List.getLast?_cons_cons] at h
      exact List.mem_cons_of_mem _ (ih h)

theorem head?_take {p : List Node} {n : Nat} : (p.take (n + 1)).head? = p.head? := by
  cases p with
  | nil => rfl
  | cons x l => rfl

theorem getLast?_take_get : ∀ (p : List Node) (i : Nat) (z : Node),
    p.get? i = some z → (p.take (i + 1)).getLast? = some z := by
  intro p
  induction p with
  | nil => intro i z h; simp at h
  | cons x l ih =>
    intro i z h
    cases i with
    | zero =>
      simp only [List.get?_cons_zero, Option.some.injEq] at h
      subst h
      rfl
    | succ i2 =>
      have hl : l.get? i2 = some z := h
      have hrec := ih i2 z hl
      show (x :: l.take (i2 + 1)).getLast? = some z
      cases hL : l.take (i2 + 1) with
      | nil => rw [hL] at hrec; simp at hrec
      | cons w ws =>
        rw [List.getLast?_cons_cons, ← hL]
        exact hrec

theorem pathPairs_take : ∀ (p : List Node) (n : Nat),
    pathPairs (p.take (n + 1)) = (pathPairs p).take n := by
  intro p
  induction p with
  | nil => intro n; simp [pathPairs]
  | cons x l ih =>
    intro n
    cases l with
    | nil => simp [pathPairs]
    | cons y l2 =>
      cases n with
      | zero => rfl
      | succ m =>
        show pathPairs (x :: (y :: l2).take (m + 1)) = _
        have hhd : ((y :: l2).take (m + 1)).head? = some y := rfl
        rw [pathPairs_cons_of_head? hhd, ih m, pathPairs_cons_cons]
        rfl

theorem IsPath_take {g : Graph} {a b : Node} {p : List Node}
    (h : IsPath g a b p) {i : Nat} {z : Node} (hz : p.get? i = some z) :
    IsPath g a z (p.take (i + 1)) := by
  obtain ⟨h1, _, h3⟩ := h
  refine ⟨by rw [head?_take]; exact h1, getLast?_take_get p i z hz, ?_⟩
  intro pr hpr
  rw [pathPairs_take] at hpr
  exact h3 pr (List.mem_of_mem_take hpr)

theorem removeEdges_nodeKeys (g : Graph) (ks : List (Node × Node)) :
    (g.removeEdges ks).nodeKeys = g.nodeKeys := rfl

theorem removeEdges_edges_sub {g : Graph} {ks : List (Node × Node)} :
    ∀ e ∈ (g.removeEdges ks).edges, e ∈ g.edges := by
  intro e he
  exact (List.mem_filter.mp he).1

theorem removeEdges_WF {g : Graph} (ks : List (Node × Node)) (hwf : g.WF) :
    (g.removeEdges ks).WF := by
  refine ⟨hwf.1, ?_, ?_⟩
  · have hsub : (g.removeEdges ks).edges.Sublist g.edges := List.filter_sublist _
    exact hwf.2.1.sublist (hsub.map _)
  · intro e he
    exact hwf.2.2 e (removeEdges_edges_sub e he)

theorem IsPath_removeEdges {g : Graph} {ks : List (Node × Node)} {a b : Node}
    {p : List Node} (h : IsPath (g.removeEdges ks) a b p) : IsPath g a b p := by
  obtain ⟨h1, h2, h3⟩ := h
  refine ⟨h1, h2, ?_⟩
  intro pr hpr
  obtain ⟨d, hd⟩ := Option.isSome_iff_exists.mp (h3 pr hpr)
  exact get_edge_data_isSome (removeEdges_edges_sub _ (get_edge_data_mem hd))

theorem any_path_eq_false {A : List (W × List Node)} {q : List Node}
    (h : (A.any (fun ap => ap.2 = q)) = false) : ∀ ap ∈ A, ap.2 ≠ q := by
  intro ap hap hc
  have htrue : A.any (fun ap => ap.2 = q) = true :=
    List.any_eq_true.mpr ⟨ap, hap, by simp [hc]⟩
  rw [h] at htrue
  exact Bool.false_ne_true htrue

/-- A well-formed Yen candidate: its recorded length is the static length of
its node sequence, which is a path of the graph from `s` to `t`. -/
def CandOK (g : Graph) (s t : Node) (c : W × List Node) : Prop :=
  c.1 = get_path_length g c.2 ∧ IsPath g s t c.2

/-- The invariant of Yen's accepted list `A`: pairwise distinct node
sequences, each a well-formed candidate. -/
def GoodA (g : Graph) (s t : Node) (A : List (W × List Node)) : Prop :=
  (A.map (fun ap => ap.2)).Nodup ∧ ∀ ap ∈ A, CandOK g s t ap

theorem spurStep_ok {g : Graph} {s t : Node} (hwf : g.WF)
    {A : List (W × List Node)} {prev : List Node} {i : Nat} {c : W × List Node}
    (hprev : IsPath g s t prev) (hstep : spurStep g t A prev i = some c) :
    CandOK g s t c ∧ ∀ ap ∈ A, ap.2 ≠ c.2 := by
  unfold spurStep at hstep
  cases hget : prev.get? i with
  | none => rw [hget] at hstep; simp at hstep
  | some spur_node =>
    rw [hget] at hstep
    simp only at hstep
    cases hbp : bestFirstPath (g.removeEdges (spurRemoved A (spurRoot prev i) i))
        yenEdgeWeight (fun _ => 0) spur_node t with
    | none => rw [hbp] at hstep; simp at hstep
    | some spur_path =>
      rw [hbp] at hstep
      simp only at hstep
      by_cases hany : (A.any (fun ap => ap.2 = (spurRoot prev i).dropLast ++ spur_path))
          = true
      · rw [if_pos hany] at hstep; simp at hstep
      · rw [if_neg hany] at hstep
        simp only [Option.some.injEq] at hstep
        subst hstep
        have hspwf : (g.removeEdges (spurRemoved A (spurRoot prev i) i)).WF :=
          removeEdges_WF _ hwf
        have hsp := (bestFirstPath_sound hspwf hbp).1
        have hspg : IsPath g spur_node t spur_path := IsPath_removeEdges hsp
        have hroot : IsPath g s spur_node (spurRoot prev i) := IsPath_take hprev hget
        have htotal : IsPath g s t ((spurRoot prev i).dropLast ++ spur_path) :=
          IsPath_glue hroot hspg
        refine ⟨⟨rfl, htotal⟩, ?_⟩
        exact any_path_eq_false (Bool.eq_false_iff.mpr hany)

theorem drainB_ok {A : List (W × List Node)} :
    ∀ (fuel : Nat) (B : List (W × List Node)) (c : W × List Node)
    (B2 : List (W × List Node)), drainB A fuel B = (some c, B2) →
    c ∈ B ∧ (∀ x ∈ B2, x ∈ B) ∧ ∀ ap ∈ A, ap.2 ≠ c.2 := by
  intro fuel
  induction fuel with
  | zero => intro B c B2 h; simp [drainB] at h
  | succ n ih =>
    intro B c B2 h
    simp only [drainB] at h
    cases hpop : popCand B with
    | none => rw [hpop] at h; simp at h
    | some p =>
      obtain ⟨c2, rest⟩ := p
      rw [hpop] at h
      simp only at h
      by_cases hany : (A.any (fun ap => ap.2 = c2.2)) = true
      · rw [if_pos hany] at h
        obtain ⟨hc, hsub, hne⟩ := ih rest c B2 h
        exact ⟨popCand_rest_subset hpop c hc,
          fun x hx => popCand_rest_subset hpop x (hsub x hx), hne⟩
      · rw [if_neg hany] at h
        simp only [Prod.mk.injEq, Option.some.injEq] at h
        obtain ⟨hc, hB2⟩ := h
        subst hc; subst hB2
        exact ⟨popCand_mem hpop, popCand_rest_subset hpop,
          any_path_eq_false (Bool.eq_false_iff.mpr hany)⟩

theorem yenLoop_good {g : Graph} {s t : Node} (hwf : g.WF) :
    ∀ (n : Nat) (A B : List (W × List Node)), GoodA g s t A →
    (∀ b ∈ B, CandOK g s t b) →
    GoodA g s t (yenLoop g t n A B).1 ∧ ∃ suf, (yenLoop g t n A B).1 = A ++ suf := by
  intro n
  induction n with
  | zero => intro A B hA _; exact ⟨hA, [], by simp [yenLoop]⟩
  | succ m ih =>
    intro A B hA hB
    simp only [yenLoop]
    cases hlast : A.getLast? with
    | none => exact ⟨hA, [], by simp⟩
    | some prev =>
      simp only
      have hprevA : prev ∈ A := getLastPair_mem hlast
      have hprevPath : IsPath g s t prev.2 := (hA.2 prev hprevA).2
      have hcands : ∀ x ∈ (List.range (prev.2.length - 1)).filterMap
          (spurStep g t A prev.2), CandOK g s t x := by
        intro x hx
        obtain ⟨i, _, hstep⟩ := List.mem_filterMap.mp hx
        exact (spurStep_ok hwf hprevPath hstep).1
      have hB1 : ∀ b ∈ B ++ (List.range (prev.2.length - 1)).filterMap
          (spurStep g t A prev.2), CandOK g s t b := by
        intro b hb
        rcases List.mem_append.mp hb with hb | hb
        · exact hB b hb
        · exact hcands b hb
      cases hdr : drainB A (B ++ (List.range (prev.2.length - 1)).filterMap
          (spurStep g t A prev.2)).length (B ++ (List.range (prev.2.length - 1)).filterMap
          (spurStep g t A prev.2)) with
      | mk oc B2 =>
        cases oc with
        | none => exact ⟨hA, [], by simp⟩
        | some c =>
          show GoodA g s t (yenLoop g t m (A ++ [c]) B2).1 ∧
            ∃ suf, (yenLoop g t m (A ++ [c]) B2).1 = A ++ suf
          obtain ⟨hcB, hB2sub, hcne⟩ := drainB_ok _ _ c B2 hdr
          have hcok : CandOK g s t c := hB1 c hcB
          have hA2 : GoodA g s t (A ++ [c]) := by
            constructor
            · rw [List.map_append]
              rw [List.nodup_append]
              refine ⟨hA.1, List.nodup_singleton _, ?_⟩
              intro q hq
              simp only [List.map_cons, List.map_nil, List.mem_singleton]
              intro hq2
              obtain ⟨ap, hap, hap2⟩ := List.mem_map.mp hq
              rw [hq2] at hap2
              exact hcne ap hap hap2
            · intro ap hap
              rcases List.mem_append.mp hap with hap | hap
              · exact hA.2 ap hap
              · simp only [List.mem_singleton] at hap
                subst hap
                exact hcok
          have hB2ok : ∀ b ∈ B2, CandOK g s t b := fun b hb => hB1 b (hB2sub b hb)
          obtain ⟨hg2, suf, hsuf⟩ := ih (A ++ [c]) B2 hA2 hB2ok
          refine ⟨hg2, [c] ++ suf, ?_⟩
          rw [hsuf, List.append_assoc]

/-! ### Yen's algorithm: the returned list -/

theorem yen_sort_head {a : W × List Node} {l : List (W × List Node)}
    (hmin : ∀ x ∈ l, a.1 ≤ x.1) :
    List.insertionSort candKeyLe (a :: l) = a :: List.insertionSort candKeyLe l := by
  show List.orderedInsert candKeyLe a (List.insertionSort candKeyLe l) = _
  cases hs : List.insertionSort candKeyLe l with
  | nil => rfl
  | cons b bs =>
    show (if candKeyLe a b then a :: b :: bs
      else b :: List.orderedInsert candKeyLe a bs) = _
    rw [if_pos]
    have hbmem : b ∈ l := (List.perm_insertionSort candKeyLe l).subset
      (by rw [hs]; exact List.mem_cons_self _ _)
    exact hmin b hbmem

theorem gpl_eq_PL {g : Graph} (hsn : StaticNice g) (q : List Node) :
    get_path_length g q = pathLength g yenEdgeWeight q := by
  unfold get_path_length
  apply pathLength_congr
  intro e he
  obtain ⟨hs, _⟩ := hsn e he
  unfold yenEdgeWeight
  cases hbb : e.2.2.base with
  | none => rw [hbb] at hs; simp at hs
  | some w => rfl

theorem pySlice_eq_take (k : ℤ) (l : List (W × List Node)) :
    ∃ n, pySlice k l = l.take n := by
  unfold pySlice
  by_cases hneg : k < 0
  · rw [if_pos hneg]; exact ⟨_, rfl⟩
  · rw [if_neg hneg]; exact ⟨_, rfl⟩

theorem pySlice_head {K : ℤ} (hK : 1 ≤ K) (a : W × List Node)
    (l : List (W × List Node)) :
    pySlice K (a :: l) = a :: l.take (K.toNat - 1) := by
  unfold pySlice
  rw [if_neg (by omega)]
  have h1 : K.toNat = (K.toNat - 1) + 1 := by omega
  rw [h1]
  rfl

theorem yen_correct_aux (g : Graph) (s t : Node) (K : ℤ) (hwf : g.WF)
    (hsn : StaticNice g) :
    (yen_k_shortest_paths g s t K).length ≤ K.toNat ∧
    (yen_k_shortest_paths g s t K).Nodup ∧
    (yen_k_shortest_paths g s t K).Pairwise
      (fun p q => get_path_length g p ≤ get_path_length g q) ∧
    (∀ p ∈ yen_k_shortest_paths g s t K, IsPath g s t p) ∧
    (∀ p, (yen_k_shortest_paths g s t K).head? = some p →
      ∃ c, dijkstra_time_dependent g s t false none = some (p, c)) := by
  by_cases hK : K ≤ 0
  · rw [yen_K_nonpos_aux g s t K hK]
    refine ⟨by simp, by simp, by simp, by simp, ?_⟩
    intro p hp
    simp at hp
  · by_cases hg : g.has_node s ∧ g.has_node t
    · cases hb : bestFirstPath g yenEdgeWeight (fun _ => 0) s t with
      | none =>
        have hres : yen_k_shortest_paths g s t K = [] := by
          unfold yen_k_shortest_paths
          rw [if_pos hg, hb]
        rw [hres]
        refine ⟨by simp, by simp, by simp, by simp, ?_⟩
        intro p hp
        simp at hp
      | some p0 =>
        have hres : yen_k_shortest_paths g s t K =
            (pySlice K (List.insertionSort candKeyLe
              (yenLoop g t (K - 1).toNat [(get_path_length g p0, p0)] []).1)).map
              (fun ap => ap.2) := by
          unfold yen_k_shortest_paths
          rw [if_pos hg, hb]
        rw [hres]
        have hp0 := bestFirstPath_sound hwf hb
        have hA0 : GoodA g s t [(get_path_length g p0, p0)] := by
          refine ⟨List.nodup_singleton _, ?_⟩
          intro ap hap
          simp only [List.mem_singleton] at hap
          subst hap
          exact ⟨rfl, hp0.1⟩
        obtain ⟨hA1good, suf, hsuf⟩ := yenLoop_good hwf (K - 1).toNat
          [(get_path_length g p0, p0)] [] hA0 (by intro b hb2; simp at hb2)
        set A1 := (yenLoop g t (K - 1).toNat [(get_path_length g p0, p0)] []).1
          with hA1def
        have hopt := bestFirstPath_optimal hwf (yenEdgeWeight_nonneg hsn) hb
        have hmin : ∀ ap ∈ A1, get_path_length g p0 ≤ ap.1 := by
          intro ap hap
          obtain ⟨hc1, hc2⟩ := hA1good.2 ap hap
          rw [hc1, gpl_eq_PL hsn, gpl_eq_PL hsn]
          exact hopt ap.2 hc2
        have hA1cons : A1 = (get_path_length g p0, p0) :: suf := by
          rw [hsuf]; rfl
        have hsorthead : List.insertionSort candKeyLe A1 =
            (get_path_length g p0, p0) :: List.insertionSort candKeyLe suf := by
          rw [hA1cons]
          apply yen_sort_head
          intro x hx
          exact hmin x (by rw [hA1cons]; exact List.mem_cons_of_mem _ hx)
        have hperm : (List.insertionSort candKeyLe A1).Perm A1 :=
          List.perm_insertionSort candKeyLe A1
        have hsorted : (List.insertionSort candKeyLe A1).Pairwise candKeyLe :=
          List.sorted_insertionSort candKeyLe A1
        obtain ⟨ntake, hslice⟩ := pySlice_eq_take K (List.insertionSort candKeyLe A1)
        have hSLsublist : (pySlice K (List.insertionSort candKeyLe A1)).Sublist
            (List.insertionSort candKeyLe A1) := by
          rw [hslice]; exact List.take_sublist _ _
        have hSLmemA1 : ∀ x ∈ pySlice K (List.insertionSort candKeyLe A1), x ∈ A1 :=
          fun x hx => hperm.subset (hSLsublist.subset hx)
        refine ⟨?_, ?_, ?_, ?_, ?_⟩
        · rw [List.length_map]
          unfold pySlice
          rw [if_neg (by omega), List.length_take]
          exact min_le_left _ _
        · have hmapA1 : ((List.insertionSort candKeyLe A1).map (fun ap => ap.2)).Nodup :=
            ((hperm.map (fun ap => ap.2)).nodup_iff).mpr hA1good.1
          exact hmapA1.sublist (hSLsublist.map _)
        · have hSLpair : (pySlice K (List.insertionSort candKeyLe A1)).Pairwise
              candKeyLe := hsorted.sublist hSLsublist
          rw [List.pairwise_map]
          refine List.Pairwise.imp_of_mem ?_ hSLpair
          intro a b ha hb2 hr
          rw [← (hA1good.2 a (hSLmemA1 a ha)).1, ← (hA1good.2 b (hSLmemA1 b hb2)).1]
          exact hr
        · intro p hp
          obtain ⟨ap, hap, hap2⟩ := List.mem_map.mp hp
          rw [← hap2]
          exact (hA1good.2 ap (hSLmemA1 ap hap)).2
        · intro p hp
          rw [hsorthead, pySlice_head (by omega)] at hp
          simp only [List.map_cons, List.head?_cons, Option.some.injEq] at hp
          subst hp
          unfold dijkstra_time_dependent
          rw [if_pos hg]
          have hcongr : bestFirstPath g (get_edge_weight false none) (fun _ => 0) s t
              = bestFirstPath g yenEdgeWeight (fun _ => 0) s t :=
            bestFirstPath_congr hwf hg.1
              (fun e he => (yenEdgeWeight_eq_static hsn e he).symm) (fun v _ => rfl)
          rw [hcongr, hb]
          exact ⟨_, rfl⟩
    · have hres : yen_k_shortest_paths g s t K = [] := by
        unfold yen_k_shortest_paths
        rw [if_neg hg]
      rw [hres]
      refine ⟨by simp, by simp, by simp, by simp, ?_⟩
      intro p hp
      simp at hp

/-! ### The claims -/

/-- C1: for every well-formed graph and every source/target pair joined by
some path, `dijkstra_time_dependent` returns a route whose first node is the
source and last node is the target, with no repeated nodes, every
consecutive pair an edge of the graph, and a total cost equal to the sum of
the effective edge weights computed by its own `get_edge_weight` along that
route. -/
theorem C1_dijkstra_returns_correct_path (g : Graph) (s t : Node) (td : Bool)
    (tod : Option String) (hwf : g.WF) (hs : g.has_node s) (ht : g.has_node t)
    (hreach : ∃ p, IsPath g s t p) :
    ∃ p c, dijkstra_time_dependent g s t td tod = some (p, c) ∧
      p.head? = some s ∧ p.getLast? = some t ∧ p.Nodup ∧
      (∀ pr ∈ pathPairs p, (g.get_edge_data pr.1 pr.2).isSome) ∧
      c = pathLength g (get_edge_weight td tod) p :=
  dijkstra_correct_aux g s t td tod hwf hs ht hreach

/-- C1 at a concrete input: the triangle graph, source 0, target 2. -/
theorem C1_dijkstra_returns_correct_path_witness :
    ∃ p c, dijkstra_time_dependent gTri 0 2 false none = some (p, c) ∧
      p.head? = some 0 ∧ p.getLast? = some 2 ∧ p.Nodup ∧
      (∀ pr ∈ pathPairs p, (gTri.get_edge_data pr.1 pr.2).isSome) ∧
      c = pathLength gTri (get_edge_weight false none) p :=
  C1_dijkstra_returns_correct_path gTri 0 2 false none (by decide) (by decide)
    (by decide) ⟨[0, 2], by decide⟩

/-- C2: on an edge carrying the queried traffic bucket, with the stored
capacity positive, the ordinary effective weight is the base metric times
`min (1 + volume / (capacity * 1)) 5` — sensitivity 1.0, cap 5.0 — while the
emergency effective weight is the base metric times
`min (1 + volume / (capacity * (3/2))) 3` — sensitivity 1.5, cap 3.0 —
further multiplied by the emergency priority factor. -/
theorem C2_congestion_formula (lbl : String) (attr : TrafficAttr)
    (d : EdgeData) (flow cap : ℤ) (f : ℚ)
    (hlbl : traffic_col_map lbl = some attr) (hflow : d.getAttr attr = some flow)
    (hcap : d.base_capacity_veh_hr = some cap) (hpos : 0 < cap) :
    get_edge_weight true (some lbl) d =
      mulW d.baseW (min (1 + (flow : ℚ) / ((cap : ℚ) * 1)) 5) ∧
    get_dynamic_edge_weight true (some lbl) f d =
      mulW (mulW d.baseW (min (1 + (flow : ℚ) / ((cap : ℚ) * (3 / 2))) 3)) f := by
  have hne : cap ≠ 0 := by omega
  constructor
  · rw [gew_active hlbl hflow, hcap]
    show mulW d.baseW (congestionFactor flow cap) = _
    unfold congestionFactor
    rw [if_neg hne, mul_one]
  · rw [gdw_active hlbl hflow f, hcap]
    show mulW (mulW d.baseW (congestionFactorEmergency flow cap)) f = _
    unfold congestionFactorEmergency
    rw [if_neg hne]

/-- C2 at a concrete input: a morning query on `trafEdge` with priority
factor one half. -/
theorem C2_congestion_formula_witness :
    get_edge_weight true (some "morning_peak") trafEdge =
      mulW trafEdge.baseW (min (1 + ((2 : ℤ) : ℚ) / (((4 : ℤ) : ℚ) * 1)) 5) ∧
    get_dynamic_edge_weight true (some "morning_peak") (1 / 2) trafEdge =
      mulW (mulW trafEdge.baseW
        (min (1 + ((2 : ℤ) : ℚ) / (((4 : ℤ) : ℚ) * (3 / 2))) 3)) (1 / 2) :=
  C2_congestion_formula "morning_peak" TrafficAttr.morning_peak_veh_h trafEdge 2 4
    (1 / 2) (by decide) rfl rfl (by decide)

/-- C3: refuted as stated — on a graph whose two-hop route lacks the queried
base metric, the first path returned by Yen's algorithm differs from the
path of the static shortest-path query, because the seed Dijkstra passes the
weight key as a string (a missing attribute defaults to weight 1) while
`dijkstra_time_dependent` uses its callable weight (a missing attribute
becomes infinite). -/
theorem C3_counterexample :
    yen_k_shortest_paths gNoKey 0 2 1 = [[0, 1, 2]] ∧
    dijkstra_time_dependent gNoKey 0 2 false none =
      some ([0, 2], WithTop.some 10) ∧
    ([0, 1, 2] : List Node) ≠ [0, 2] := by decide

/-- C3 (amended): on a well-formed graph all of whose edges carry the
queried base metric with a nonnegative value, `yen_k_shortest_paths` returns
at most K paths, pairwise distinct as node sequences, in non-decreasing
static cost order, each one a route from source to target; and when the
list is nonempty its first element is the path of the static shortest-path
query. -/
theorem C3_yen_sorted_unique_head (g : Graph) (s t : Node) (K : ℤ)
    (hwf : g.WF) (hsn : StaticNice g) :
    (yen_k_shortest_paths g s t K).length ≤ K.toNat ∧
    (yen_k_shortest_paths g s t K).Nodup ∧
    (yen_k_shortest_paths g s t K).Pairwise
      (fun p q => get_path_length g p ≤ get_path_length g q) ∧
    (∀ p ∈ yen_k_shortest_paths g s t K, IsPath g s t p) ∧
    (∀ p, (yen_k_shortest_paths g s t K).head? = some p →
      ∃ c, dijkstra_time_dependent g s t false none = some (p, c)) :=
  yen_correct_aux g s t K hwf hsn

/-- C3 (amended) at a concrete input: the triangle graph with K = 2. -/
theorem C3_yen_sorted_unique_head_witness :
    (yen_k_shortest_paths gTri 0 2 2).length ≤ (2 : ℤ).toNat ∧
    (yen_k_shortest_paths gTri 0 2 2).Nodup ∧
    (yen_k_shortest_paths gTri 0 2 2).Pairwise
      (fun p q => get_path_length gTri p ≤ get_path_length gTri q) ∧
    (∀ p ∈ yen_k_shortest_paths gTri 0 2 2, IsPath gTri 0 2 p) ∧
    (∀ p, (yen_k_shortest_paths gTri 0 2 2).head? = some p →
      ∃ c, dijkstra_time_dependent gTri 0 2 false none = some (p, c)) :=
  C3_yen_sorted_unique_head gTri 0 2 2 (by decide) (by decide)

/-- C4: refuted — with the loop-prevention block of Yen's algorithm left as
a `pass`, a spur search may walk back through the root path: on the triangle
graph with a back edge, the third returned route repeats node 0, so the
routers do not guarantee loopless output. -/
theorem C4_yen_repeated_node :
    yen_k_shortest_paths gTri 0 2 3 = [[0, 1, 2], [0, 2], [0, 1, 0, 2]] ∧
    ∃ p ∈ yen_k_shortest_paths gTri 0 2 3, ¬ p.Nodup := by decide

/-- C5: refuted as stated — a missing path between valid nodes and an
absent endpoint both come back as the same untyped `none` result, so a
caller cannot distinguish the two outcomes (node 2 exists but is
unreachable from 0 in `gIso`; node 99 does not exist). -/
theorem C5_counterexample :
    dijkstra_time_dependent gIso 0 2 false none =
      dijkstra_time_dependent gIso 0 99 false none ∧
    dijkstra_time_dependent gIso 0 2 false none = none := by decide

/-- C5 (amended): both failure modes of `dijkstra_time_dependent` produce
the same untyped `none`: the call returns `none` when an endpoint is absent
from the graph, and also `none` when both endpoints are present but no path
joins them. -/
theorem C5_none_on_both_failures (g : Graph) (s t : Node) (td : Bool)
    (tod : Option String) (hwf : g.WF) :
    (¬ (g.has_node s ∧ g.has_node t) →
      dijkstra_time_dependent g s t td tod = none) ∧
    ((¬ ∃ p, IsPath g s t p) → dijkstra_time_dependent g s t td tod = none) :=
  dijkstra_none_aux g s t td tod hwf

/-- C5 (amended) at a concrete input: the absent endpoint 99. -/
theorem C5_none_on_both_failures_witness :
    dijkstra_time_dependent gIso 0 99 false none = none :=
  (C5_none_on_both_failures gIso 0 99 false none (by decide)).1 (by decide)

/-- C6: refuted — none of the three parameters is validated: an unknown
time-of-day label still runs a search and returns the static result, K = 0
yields the empty list without an error, and a priority factor of 0 runs an
A* search whose weights are all zero and returns a route. -/
theorem C6_counterexample :
    dijkstra_time_dependent gTri 0 2 true (some "rush_hour") =
      some ([0, 1, 2], WithTop.some 2) ∧
    yen_k_shortest_paths gTri 0 2 0 = [] ∧
    a_star_emergency_path gTri 0 2 false none 0 =
      some ([0, 2], WithTop.some 0) := by decide

/-- C6 (amended): the out-of-range parameters are absorbed, not rejected: a
time-of-day label outside `traffic_col_map` leaves the query identical to
the static one, and a non-positive K makes Yen's algorithm return the empty
list. -/
theorem C6_no_parameter_validation (g : Graph) (s t : Node) (K : ℤ)
    (lbl : String) (hwf : g.WF) (hlbl : traffic_col_map lbl = none)
    (hK : K ≤ 0) :
    dijkstra_time_dependent g s t true (some lbl) =
      dijkstra_time_dependent g s t false none ∧
    yen_k_shortest_paths g s t K = [] :=
  ⟨dijkstra_static_equiv_aux g s t true (some lbl) hwf
      (Or.inr (Or.inr ⟨lbl, rfl, Or.inl hlbl⟩)),
    yen_K_nonpos_aux g s t K hK⟩

/-- C6 (amended) at a concrete input: the unknown label `rush_hour` and
K = 0 on the triangle graph. -/
theorem C6_no_parameter_validation_witness :
    dijkstra_time_dependent gTri 0 2 true (some "rush_hour") =
      dijkstra_time_dependent gTri 0 2 false none ∧
    yen_k_shortest_paths gTri 0 2 0 = [] :=
  C6_no_parameter_validation gTri 0 2 0 "rush_hour" (by decide) (by decide)
    (by decide)

/-- C7: refuted as stated — a zero capacity is floored to 1 before the
ratio is formed, so with volume 1 the ordinary factor is 2, not the cap 5,
and the emergency factor is 5/3, not the cap 3; the claim is right only
about finiteness. -/
theorem C7_counterexample :
    congestionFactor 1 0 = 2 ∧ (2 : ℚ) ≠ 5 ∧
    congestionFactorEmergency 1 0 = 5 / 3 ∧ ((5 : ℚ) / 3) ≠ 3 ∧
    get_edge_weight true (some "morning_peak") zeroCapEdge =
      WithTop.some 2 := by decide

/-- C7 (amended): on an edge of capacity 0 carrying the queried traffic
bucket, the capacity is floored to 1, so the ordinary congestion factor is
`min (1 + volume) 5`, the emergency one is `min (1 + volume / (3/2)) 3`,
and the effective weight of an edge with finite base metric stays finite. -/
theorem C7_zero_capacity_floored (flow : ℤ) (d : EdgeData) (lbl : String)
    (attr : TrafficAttr) (q : ℚ) (hlbl : traffic_col_map lbl = some attr)
    (hflow : d.getAttr attr = some flow)
    (hcap : d.base_capacity_veh_hr = some 0)
    (hbase : d.base = some (WithTop.some q)) :
    congestionFactor flow 0 = min (1 + (flow : ℚ)) 5 ∧
    congestionFactorEmergency flow 0 = min (1 + (flow : ℚ) / (3 / 2)) 3 ∧
    get_edge_weight true (some lbl) d =
      WithTop.some (q * min (1 + (flow : ℚ)) 5) := by
  have h1 : congestionFactor flow 0 = min (1 + (flow : ℚ)) 5 := by
    unfold congestionFactor
    norm_num
  have h2 : congestionFactorEmergency flow 0 =
      min (1 + (flow : ℚ) / (3 / 2)) 3 := by
    unfold congestionFactorEmergency
    norm_num
  refine ⟨h1, h2, ?_⟩
  rw [gew_active hlbl hflow, hcap]
  show mulW d.baseW (congestionFactor flow 0) = _
  unfold EdgeData.baseW
  rw [hbase]
  show mulW (WithTop.some q) (congestionFactor flow 0) = _
  rw [mulW_some, h1]

/-- C7 (amended) at a concrete input: the zero-capacity edge with morning
volume 1. -/
theorem C7_zero_capacity_floored_witness :
    congestionFactor 1 0 = min (1 + ((1 : ℤ) : ℚ)) 5 ∧
    congestionFactorEmergency 1 0 = min (1 + ((1 : ℤ) : ℚ) / (3 / 2)) 3 ∧
    get_edge_weight true (some "morning_peak") zeroCapEdge =
      WithTop.some (1 * min (1 + ((1 : ℤ) : ℚ)) 5) :=
  C7_zero_capacity_floored 1 zeroCapEdge "morning_peak"
    TrafficAttr.morning_peak_veh_h 1 (by decide) rfl rfl rfl

/-- C8: refuted as stated — the A* heuristic, Euclidean distance scaled by
the priority factor, is not admissible for the stored base metric: on
`gCoord` the heuristic makes A* return the direct route of cost 3 while
Dijkstra returns the two-hop route of cost 2. -/
theorem C8_counterexample :
    a_star_emergency_path gCoord 0 2 false none 1 =
      some ([0, 2], WithTop.some 3) ∧
    dijkstra_time_dependent gCoord 0 2 false none =
      some ([0, 1, 2], WithTop.some 2) ∧
    some ([0, 2], (WithTop.some 3 : W)) ≠
      some ([0, 1, 2], (WithTop.some 2 : W)) := by decide

/-- C8 (amended): when every node's heuristic to the target is zero — in
particular whenever coordinates are missing — `a_star_emergency_path` with
priority factor 1 and no time dependency coincides with
`dijkstra_time_dependent` exactly, path and cost. -/
theorem C8_astar_degenerates_to_dijkstra (g : Graph) (s t : Node)
    (hwf : g.WF) (hh : ∀ v ∈ g.nodeKeys, heuristic_distance g v t = 0) :
    a_star_emergency_path g s t false none 1 =
      dijkstra_time_dependent g s t false none :=
  astar_degenerate_aux g s t hwf hh

/-- C8 (amended) at a concrete input: the triangle graph, which has no
coordinates. -/
theorem C8_astar_degenerates_to_dijkstra_witness :
    a_star_emergency_path gTri 0 2 false none 1 =
      dijkstra_time_dependent gTri 0 2 false none :=
  C8_astar_degenerates_to_dijkstra gTri 0 2 (by decide) (by decide)

/-- C9: the congestion factor is monotonically non-decreasing in the
traffic volume for a fixed nonnegative capacity, never exceeds the cap 5,
and at capacity 1000 with volume 10000 it is exactly the cap 5, not 11. -/
theorem C9_factor_monotone_capped (f1 f2 cap : ℤ) (hc : 0 ≤ cap)
    (h : f1 ≤ f2) :
    congestionFactor f1 cap ≤ congestionFactor f2 cap ∧
    congestionFactor f2 cap ≤ 5 ∧
    congestionFactor 10000 1000 = 5 :=
  ⟨congestionFactor_mono cap hc h, congestionFactor_le_five f2 cap, by decide⟩

/-- C9 at a concrete input: volumes 100 ≤ 200 at capacity 1000. -/
theorem C9_factor_monotone_capped_witness :
    congestionFactor 100 1000 ≤ congestionFactor 200 1000 ∧
    congestionFactor 200 1000 ≤ 5 ∧
    congestionFactor 10000 1000 = 5 :=
  C9_factor_monotone_capped 100 200 1000 (by decide) (by decide)

/-- C10: whenever congestion does not apply — time dependency off, no
time-of-day label, an unknown label, or no edge carrying the label's
traffic bucket — every edge weight equals the static base metric and the
whole call returns exactly the static query's path and cost. -/
theorem C10_static_equivalence (g : Graph) (s t : Node) (td : Bool)
    (tod : Option String) (hwf : g.WF)
    (hcase : td = false ∨ tod = none ∨
      (∃ lbl, tod = some lbl ∧ (traffic_col_map lbl = none ∨
        (∃ attr, traffic_col_map lbl = some attr ∧
          ∀ e ∈ g.edges, e.2.2.getAttr attr = none)))) :
    (∀ e ∈ g.edges, get_edge_weight td tod e.2.2 = e.2.2.baseW) ∧
    dijkstra_time_dependent g s t td tod =
      dijkstra_time_dependent g s t false none := by
  refine ⟨?_, dijkstra_static_equiv_aux g s t td tod hwf hcase⟩
  intro e he
  rcases hcase with hc | hc | ⟨lbl, hlbl, hc⟩
  · subst hc
    rw [gew_false]
  · subst hc
    rw [gew_none]
  · subst hlbl
    rcases hc with hc | ⟨attr, hattr, hall⟩
    · rw [gew_unknown td hc]
    · rw [gew_no_bucket td hattr (hall e he)]

/-- C10 at a concrete input: a morning query on the triangle graph, whose
edges carry no traffic buckets. -/
theorem C10_static_equivalence_witness :
    (∀ e ∈ gTri.edges,
      get_edge_weight true (some "morning_peak") e.2.2 = e.2.2.baseW) ∧
    dijkstra_time_dependent gTri 0 2 true (some "morning_peak") =
      dijkstra_time_dependent gTri 0 2 false none :=
  C10_static_equivalence gTri 0 2 true (some "morning_peak") (by decide)
    (Or.inr (Or.inr ⟨"morning_peak", rfl,
      Or.inr ⟨TrafficAttr.morning_peak_veh_h, by decide, by decide⟩⟩))

end TransportSys
